import Mathlib

/-!
Verification of the `idealloc` core (`coreba`): a shallow embedding of the
job model, the gatekeeper, event traversal, interval-graph coloring,
gap finding, Lemma-1 strip carving, best-fit placement and the trivial
branches of the `idealloc` driver, together with proofs of the spec's
testable properties.
-/

namespace Coreba

/-- `usize::MAX`, used as an early-abort sentinel by `do_best_fit`.
The source's `ByteSteps` (= `usize`) is modelled as `Nat`; machine overflow
plays no role in the claims under verification. -/
def USIZE_MAX : Nat := 2 ^ 64 - 1

/-- The fundamental unit, `struct Job` of `lib.rs`.  Field order follows the
source.  `contents` is `none` for original jobs and holds the ordered set of
contained jobs for boxes. -/
inductive Job where
  | mk (size birth death req_size : Nat) (alignment : Option Nat)
      (contents : Option (List Job)) (originals_boxed : Nat) (id : Nat) : Job

def Job.size : Job → Nat
  | .mk s _ _ _ _ _ _ _ => s

def Job.birth : Job → Nat
  | .mk _ b _ _ _ _ _ _ => b

def Job.death : Job → Nat
  | .mk _ _ d _ _ _ _ _ => d

def Job.req_size : Job → Nat
  | .mk _ _ _ r _ _ _ _ => r

def Job.alignment : Job → Option Nat
  | .mk _ _ _ _ a _ _ _ => a

def Job.contents : Job → Option (List Job)
  | .mk _ _ _ _ _ c _ _ => c

def Job.originals_boxed : Job → Nat
  | .mk _ _ _ _ _ _ o _ => o

def Job.id : Job → Nat
  | .mk _ _ _ _ _ _ _ i => i

/-- `Job::is_original`: a job is original iff it has no contents. -/
def Job.is_original (j : Job) : Bool :=
  match j.contents with
  | some _ => false
  | none => true

/-- `Job::is_live_at`: liveness is the open interval `(birth, death)`. -/
def Job.is_live_at (j : Job) (t : Nat) : Prop :=
  j.birth < t ∧ j.death > t

/-- `PlacedJob::overlaps_with`, expressed on the underlying jobs. -/
def Job.overlaps_with (a b : Job) : Prop :=
  a.birth < b.death ∧ b.birth < a.death

instance (a b : Job) : Decidable (a.overlaps_with b) :=
  inferInstanceAs (Decidable (a.birth < b.death ∧ b.birth < a.death))

/-- A job is well formed when its birth precedes its death (enforced by the
gatekeeper for all original jobs). -/
def Job.wf (j : Job) : Prop := j.birth < j.death

instance (j : Job) : Decidable j.wf :=
  inferInstanceAs (Decidable (j.birth < j.death))

/-! ## The gatekeeper (`jobset.rs::init`) -/

/-- `JobError`: a typed error holding a message and the offending job. -/
structure JobError where
  message : String
  culprit : Job

/-- The per-job validation chain of `init`, mirroring the source's
`if`/`else if` cascade exactly: note that when `alignment` is `Some a` with
`a` nonzero, the later originality and `req_size` checks are *skipped*,
because they sit in the `else` branches of the `if let`. -/
def check_job (j : Job) : Option String :=
  if j.size = 0 then some "Job with 0 size found!"
  else if j.birth ≥ j.death then some "Job with birth >= death found!"
  else
    match j.alignment with
    | some a => if a = 0 then some "Job with 0 alignment found!" else none
    | none =>
      if j.is_original = false then some "Unoriginal job found! (non-empty contents)"
      else if j.originals_boxed ≠ 0 then some "Unoriginal job found! (non-zero originals_boxed)"
      else if j.size < j.req_size then some "Job with req > alloc size found!"
      else none

/-- First offending job of the input, if any, in input order. -/
def find_culprit : List Job → Option JobError
  | [] => none
  | j :: rest =>
    match check_job j with
    | some m => some ⟨m, j⟩
    | none => find_culprit rest

/-- `jobset.rs::init`: returns the whole input on success, or the first
offending job wrapped in a `JobError`. -/
def init (in_elts : List Job) : Except JobError (List Job) :=
  match find_culprit in_elts with
  | some e => .error e
  | none => .ok in_elts

/-! ## Alignment correction (`helpe.rs::PlacedJob::get_corrected_offset`) -/

/-- `PlacedJob::get_corrected_offset`: returns an offset for the job derived
from candidate `cand`, corrected for the job's alignment (if any). -/
def get_corrected_offset (j : Job) (start_addr cand : Nat) : Nat :=
  match j.alignment with
  | some a =>
    let cand_addr := start_addr + cand
    if cand_addr = 0 ∨ cand_addr % a = 0 then cand
    else if cand_addr < a then a - start_addr
    else (cand_addr / a + 1) * a - start_addr
  | none => cand

/-- Unfolding equation for `get_corrected_offset` when the job carries an
alignment. -/
theorem get_corrected_offset_some (j : Job) (s c a : Nat)
    (hal : j.alignment = some a) :
    get_corrected_offset j s c =
      if s + c = 0 ∨ (s + c) % a = 0 then c
      else if s + c < a then a - s
      else ((s + c) / a + 1) * a - s := by
  unfold get_corrected_offset
  rw [hal]

/-- Unfolding equation for `get_corrected_offset` without alignment. -/
theorem get_corrected_offset_none (j : Job) (s c : Nat)
    (hal : j.alignment = none) :
    get_corrected_offset j s c = c := by
  unfold get_corrected_offset
  rw [hal]

/-- A job's alignment, when present, is positive.  This is exactly what the
gatekeeper enforces; a zero alignment would make the source panic on `% 0`. -/
def Job.alignment_ok (j : Job) : Prop :=
  ∀ a, j.alignment = some a → 0 < a

instance (j : Job) : Decidable j.alignment_ok :=
  match hal : j.alignment with
  | none => isTrue (fun a ha => by rw [hal] at ha; cases ha)
  | some b =>
    decidable_of_iff (0 < b)
      ⟨fun hb a ha => by
        rw [hal] at ha
        injection ha with h
        rw [← h]
        exact hb,
       fun h => h b hal⟩

/-- The corrected offset never decreases the candidate (for a job whose
alignment, if present, is positive). -/
theorem get_corrected_offset_ge (j : Job) (s c : Nat)
    (hok : j.alignment_ok) :
    c ≤ get_corrected_offset j s c := by
  cases hal : j.alignment with
  | none => rw [get_corrected_offset_none j s c hal]
  | some a =>
    have ha : 0 < a := hok a hal
    rw [get_corrected_offset_some j s c a hal]
    split_ifs with h1 h2
    · exact le_refl c
    · omega
    · push_neg at h1 h2
      have hdm := Nat.div_add_mod (s + c) a
      have hmlt := Nat.mod_lt (s + c) ha
      have hexp : ((s + c) / a + 1) * a = a * ((s + c) / a) + a := by ring
      omega

/-- Whenever the job has a positive alignment, the address obtained by adding
the corrected offset to the start address is a multiple of the alignment. -/
theorem get_corrected_offset_aligned (j : Job) (s c a : Nat)
    (hal : j.alignment = some a) (hpos : 0 < a) :
    (s + get_corrected_offset j s c) % a = 0 := by
  rw [get_corrected_offset_some j s c a hal]
  split_ifs with h1 h2
  · rcases h1 with h | h
    · rw [h, Nat.zero_mod]
    · exact h
  · push_neg at h1
    have : s + (a - s) = a := by omega
    rw [this, Nat.mod_self]
  · push_neg at h1 h2
    have hdm := Nat.div_add_mod (s + c) a
    have hmlt := Nat.mod_lt (s + c) hpos
    have hexp : ((s + c) / a + 1) * a = a * ((s + c) / a) + a := by ring
    have hs : s ≤ ((s + c) / a + 1) * a := by omega
    have : s + (((s + c) / a + 1) * a - s) = ((s + c) / a + 1) * a := by omega
    rw [this, Nat.mul_mod_left]

/-! ## Event traversal (`helpe.rs::Event`, `jobset.rs::get_events`) -/

inductive EventKind where
  | birth
  | death
deriving DecidableEq

structure Event where
  job : Job
  evt_t : EventKind
  time : Nat

/-- Rank encoding the tie-break of `Event::cmp`: deaths before births. -/
def kind_rank : EventKind → Nat
  | .death => 0
  | .birth => 1

/-- Single sort key realizing `Event::cmp`'s pop order: ascending time,
deaths before births at equal times (the heap is a max-heap on the reversed
comparison, so draining it yields exactly this order). -/
def event_key (e : Event) : Nat := 2 * e.time + kind_rank e.evt_t

def eventLE (a b : Event) : Prop := event_key a ≤ event_key b

instance : DecidableRel eventLE := fun _ _ => Nat.decLe _ _

instance : IsTotal Event eventLE := ⟨fun _ _ => Nat.le_total _ _⟩

instance : IsTrans Event eventLE := ⟨fun _ _ _ => Nat.le_trans⟩

/-- The two events of one job, in the order `get_events` pushes them. -/
def job_events (j : Job) : List Event :=
  [⟨j, .birth, j.birth⟩, ⟨j, .death, j.death⟩]

/-- `jobset.rs::get_events`: the heap's drain order is modelled as a stable
sort of the pushed events by `event_key`; the relative order of key-equal
events is unspecified in the source. -/
def get_events (jobs : List Job) : List Event :=
  List.insertionSort eventLE (jobs.flatMap job_events)

theorem get_events_sorted (jobs : List Job) :
    List.Sorted eventLE (get_events jobs) :=
  List.sorted_insertionSort eventLE _

theorem get_events_perm (jobs : List Job) :
    List.Perm (get_events jobs) (jobs.flatMap job_events) :=
  List.perm_insertionSort eventLE _

theorem mem_get_events {jobs : List Job} {e : Event} :
    e ∈ get_events jobs ↔ e ∈ jobs.flatMap job_events :=
  (get_events_perm jobs).mem_iff

/-! ## Best-fit squeezing (`placement.rs::do_best_fit`)

The source mutates shared `PlacedJob` cells (`offset`, `times_squeezed`)
reachable both from the interference graph and from the registry.  We model
the mutable cells as a store `Nat → Squeezed` indexed by job id, the static
data as `job_of : Nat → Job`, and the interference graph as the ids of each
job's neighbours.  The loose placement's drain order is passed explicitly
(the source pops jobs by ascending symbolic offset). -/

/-- The two interior-mutable cells of a `PlacedJob`. -/
structure Squeezed where
  offset : Nat
  times_squeezed : Nat

/-- Static context of a best-fit run: the job of each id, and each id's
interference-graph neighbour list. -/
structure BFCtx where
  job_of : Nat → Job
  ig : Nat → List Nat

/-- `PlacedJob::next_avail_offset`. -/
def next_avail_offset (ctx : BFCtx) (st : Nat → Squeezed) (n : Nat) : Nat :=
  (st n).offset + (ctx.job_of n).size

/-- Ascending placed-offset order used when traversing interference
neighbours (ids break ties; the source's sort is unstable). -/
def offLE (st : Nat → Squeezed) (n m : Nat) : Prop :=
  (st n).offset < (st m).offset ∨ ((st n).offset = (st m).offset ∧ n ≤ m)

instance (st : Nat → Squeezed) : DecidableRel (offLE st) := by
  intro n m
  unfold offLE
  infer_instance

instance (st : Nat → Squeezed) : IsTotal Nat (offLE st) :=
  ⟨by intro a b; unfold offLE; omega⟩

instance (st : Nat → Squeezed) : IsTrans Nat (offLE st) :=
  ⟨by intro a b c; unfold offLE; omega⟩

/-- The neighbours consulted for one job: already-squeezed ones (generation
filter `times_squeezed == iters_done + 1`), in ascending placed offset. -/
def sorted_neighbors (ctx : BFCtx) (st : Nat → Squeezed) (iters_done i : Nat) :
    List Nat :=
  List.insertionSort (offLE st)
    ((ctx.ig i).filter (fun n => (st n).times_squeezed == iters_done + 1))

/-- The inner gap-scanning loop of `do_best_fit`, mirroring the source:
`runner` is `offset_runner`, `smallest` is `smallest_gap`, `best` is
`best_offset`.  In first-fit mode the loop breaks as soon as a gap fits. -/
def best_fit_scan (ctx : BFCtx) (st : Nat → Squeezed) (to_squeeze : Job)
    (start_addr : Nat) (first_fit : Bool) :
    List Nat → Nat → Nat → Option Nat → Nat × Option Nat
  | [], runner, _, best => (runner, best)
  | n :: rest, runner, smallest, best =>
    let njo := (st n).offset
    if njo > runner then
      let test_off := get_corrected_offset to_squeeze start_addr runner
      if njo > test_off ∧ njo - test_off ≥ to_squeeze.size then
        if first_fit then (runner, some test_off)
        else
          let gap := njo - test_off
          if gap < smallest then
            best_fit_scan ctx st to_squeeze start_addr first_fit rest
              (max test_off (next_avail_offset ctx st n)) gap (some test_off)
          else
            best_fit_scan ctx st to_squeeze start_addr first_fit rest
              (max test_off (next_avail_offset ctx st n)) smallest best
      else
        best_fit_scan ctx st to_squeeze start_addr first_fit rest
          (max test_off (next_avail_offset ctx st n)) smallest best
    else
      best_fit_scan ctx st to_squeeze start_addr first_fit rest
        (max runner (next_avail_offset ctx st n)) smallest best

/-- The offset finally assigned after a scan: the recorded best offset if
any, else the final runner (the "top"). -/
def scan_choice (r : Nat × Option Nat) : Nat := r.2.getD r.1

/-- The offset one squeeze assigns to job `i`: the best recorded gap offset,
else the final `offset_runner`. -/
def squeeze_offset (ctx : BFCtx) (st : Nat → Squeezed) (iters_done : Nat)
    (first_fit : Bool) (start_addr i : Nat) : Nat :=
  scan_choice (best_fit_scan ctx st (ctx.job_of i) start_addr first_fit
    (sorted_neighbors ctx st iters_done i) 0 USIZE_MAX none)

/-- The store after squeezing job `i`: its offset is set and it is marked
with the current generation. -/
def squeeze_store (ctx : BFCtx) (st : Nat → Squeezed) (iters_done : Nat)
    (first_fit : Bool) (start_addr i : Nat) : Nat → Squeezed :=
  fun x => if x = i then ⟨squeeze_offset ctx st iters_done first_fit start_addr i,
    iters_done + 1⟩ else st x

theorem squeeze_store_self (ctx : BFCtx) (st : Nat → Squeezed)
    (iters_done : Nat) (first_fit : Bool) (start_addr i : Nat) :
    squeeze_store ctx st iters_done first_fit start_addr i i =
      ⟨squeeze_offset ctx st iters_done first_fit start_addr i, iters_done + 1⟩ :=
  if_pos rfl

theorem squeeze_store_other (ctx : BFCtx) (st : Nat → Squeezed)
    (iters_done : Nat) (first_fit : Bool) (start_addr i x : Nat) (h : x ≠ i) :
    squeeze_store ctx st iters_done first_fit start_addr i x = st x :=
  if_neg h

/-- `placement.rs::do_best_fit`: pops jobs in the given order, squeezes each
against its already-placed neighbours, marks it with the current generation,
and tracks the running maximum end address; if that maximum ever exceeds
`makespan_lim` the sentinel `USIZE_MAX` is returned at once. -/
def do_best_fit (ctx : BFCtx) (iters_done makespan_lim : Nat)
    (first_fit : Bool) (start_addr : Nat) :
    List Nat → (Nat → Squeezed) → Nat → Nat × (Nat → Squeezed)
  | [], st, max_address => (max_address, st)
  | i :: rest, st, max_address =>
    let off := squeeze_offset ctx st iters_done first_fit start_addr i
    let st' := squeeze_store ctx st iters_done first_fit start_addr i
    let cand := off + (ctx.job_of i).size
    if cand > max_address then
      if cand > makespan_lim then (USIZE_MAX, st')
      else do_best_fit ctx iters_done makespan_lim first_fit start_addr rest st' cand
    else do_best_fit ctx iters_done makespan_lim first_fit start_addr rest st' max_address

/-- One-step unfolding of `do_best_fit`. -/
theorem do_best_fit_cons (ctx : BFCtx) (iters_done makespan_lim : Nat)
    (first_fit : Bool) (start_addr i : Nat) (rest : List Nat)
    (st : Nat → Squeezed) (max_address : Nat) :
    do_best_fit ctx iters_done makespan_lim first_fit start_addr (i :: rest) st max_address =
      if squeeze_offset ctx st iters_done first_fit start_addr i + (ctx.job_of i).size
          > max_address then
        if squeeze_offset ctx st iters_done first_fit start_addr i + (ctx.job_of i).size
            > makespan_lim then
          (USIZE_MAX, squeeze_store ctx st iters_done first_fit start_addr i)
        else do_best_fit ctx iters_done makespan_lim first_fit start_addr rest
          (squeeze_store ctx st iters_done first_fit start_addr i)
          (squeeze_offset ctx st iters_done first_fit start_addr i + (ctx.job_of i).size)
      else do_best_fit ctx iters_done makespan_lim first_fit start_addr rest
        (squeeze_store ctx st iters_done first_fit start_addr i) max_address := by
  simp only [do_best_fit]

/-- Address-range disjointness of two placed jobs in a given store. -/
def ranges_disjoint (ctx : BFCtx) (st : Nat → Squeezed) (a b : Nat) : Prop :=
  (st a).offset + (ctx.job_of a).size ≤ (st b).offset ∨
  (st b).offset + (ctx.job_of b).size ≤ (st a).offset

theorem ranges_disjoint_symm {ctx : BFCtx} {st : Nat → Squeezed} {a b : Nat}
    (h : ranges_disjoint ctx st a b) : ranges_disjoint ctx st b a :=
  h.symm

/-- Safety of the inner scan: whatever offset the scan finally selects for
`j` (a fitting gap or the top), the resulting address range of `j` is
disjoint from the range of every visited neighbour and of every neighbour in
the remaining (offset-ascending) list. -/
theorem best_fit_scan_safe (ctx : BFCtx) (st : Nat → Squeezed) (j : Job)
    (s : Nat) (ff : Bool) (hok : j.alignment_ok) :
    ∀ (ns : List Nat) (visited : List Nat) (runner smallest : Nat)
      (best : Option Nat),
    List.Sorted (offLE st) ns →
    (∀ v, v ∈ visited → next_avail_offset ctx st v ≤ runner) →
    (∀ o, best = some o → ∀ x, (x ∈ visited ∨ x ∈ ns) →
        next_avail_offset ctx st x ≤ o ∨ o + j.size ≤ (st x).offset) →
    ∀ x, (x ∈ visited ∨ x ∈ ns) →
      next_avail_offset ctx st x ≤
          scan_choice (best_fit_scan ctx st j s ff ns runner smallest best) ∨
        scan_choice (best_fit_scan ctx st j s ff ns runner smallest best) + j.size ≤
          (st x).offset := by
  intro ns
  induction ns with
  | nil =>
    intro visited runner smallest best _ hA hB x hx
    rcases hx with hx | hx
    · cases best with
      | none => exact Or.inl (hA x hx)
      | some o => exact hB o rfl x (Or.inl hx)
    · cases hx
  | cons n rest ih =>
    intro visited runner smallest best hsort hA hB x hx
    have hsort_rest : List.Sorted (offLE st) rest := hsort.of_cons
    have hn_le : ∀ y ∈ rest, (st n).offset ≤ (st y).offset := by
      intro y hy
      have := List.rel_of_sorted_cons hsort y hy
      unfold offLE at this
      omega
    by_cases hgt : (st n).offset > runner
    · set test := get_corrected_offset j s runner with htest
      have htest_ge : runner ≤ test := get_corrected_offset_ge j s runner hok
      by_cases hfit : (st n).offset > test ∧ (st n).offset - test ≥ j.size
      · by_cases hff : ff = true
        · -- first-fit break: the recorded offset is `test`
          have heq : best_fit_scan ctx st j s ff (n :: rest) runner smallest best
              = (runner, some test) := by
            simp only [best_fit_scan, if_pos hgt, ← htest, if_pos hfit, hff, if_pos]
          rw [heq]
          have hchoice : scan_choice (runner, some test) = test := rfl
          rw [hchoice]
          rcases hx with hx | hx
          · exact Or.inl (le_trans (hA x hx) htest_ge)
          · rcases List.mem_cons.mp hx with rfl | hx
            · exact Or.inr (by omega)
            · exact Or.inr (le_trans (by omega) (hn_le x hx))
        · -- best-fit: maybe record `test`, then continue
          have hffF : ff = false := by
            cases ff
            · rfl
            · exact absurd rfl hff
          subst hffF
          by_cases hgap : (st n).offset - test < smallest
          · have heq : best_fit_scan ctx st j s false (n :: rest) runner smallest best
                = best_fit_scan ctx st j s false rest
                    (max test (next_avail_offset ctx st n))
                    ((st n).offset - test) (some test) := by
              simp only [best_fit_scan, if_pos hgt, ← htest, if_pos hfit,
                Bool.false_eq_true, if_pos hgap]
              exact if_neg id
            rw [heq]
            have hBnew : ∀ o, (some test : Option Nat) = some o → ∀ y,
                (y ∈ visited ++ [n] ∨ y ∈ rest) →
                next_avail_offset ctx st y ≤ o ∨ o + j.size ≤ (st y).offset := by
              intro o ho y hy
              cases ho
              rcases hy with hy | hy
              · rcases List.mem_append.mp hy with hy | hy
                · exact Or.inl (le_trans (hA y hy) htest_ge)
                · rcases List.mem_singleton.mp hy with rfl
                  exact Or.inr (by omega)
              · exact Or.inr (le_trans (by omega) (hn_le y hy))
            have hAnew : ∀ v, v ∈ visited ++ [n] →
                next_avail_offset ctx st v ≤ max test (next_avail_offset ctx st n) := by
              intro v hv
              rcases List.mem_append.mp hv with hv | hv
              · exact le_trans (le_trans (hA v hv) htest_ge) (le_max_left _ _)
              · rcases List.mem_singleton.mp hv with rfl
                exact le_max_right _ _
            have := ih (visited ++ [n]) (max test (next_avail_offset ctx st n))
              ((st n).offset - test) (some test) hsort_rest hAnew hBnew x
            apply this
            rcases hx with hx | hx
            · exact Or.inl (List.mem_append.mpr (Or.inl hx))
            · rcases List.mem_cons.mp hx with rfl | hx
              · exact Or.inl (List.mem_append.mpr (Or.inr (List.mem_singleton.mpr rfl)))
              · exact Or.inr hx
          · have heq : best_fit_scan ctx st j s false (n :: rest) runner smallest best
                = best_fit_scan ctx st j s false rest
                    (max test (next_avail_offset ctx st n)) smallest best := by
              simp only [best_fit_scan, if_pos hgt, ← htest, if_pos hfit,
                Bool.false_eq_true, if_neg hgap]
              exact if_neg id
            rw [heq]
            have hBnew : ∀ o, best = some o → ∀ y,
                (y ∈ visited ++ [n] ∨ y ∈ rest) →
                next_avail_offset ctx st y ≤ o ∨ o + j.size ≤ (st y).offset := by
              intro o ho y hy
              apply hB o ho
              rcases hy with hy | hy
              · rcases List.mem_append.mp hy with hy | hy
                · exact Or.inl hy
                · rcases List.mem_singleton.mp hy with rfl
                  exact Or.inr (List.mem_cons_self _ _)
              · exact Or.inr (List.mem_cons_of_mem _ hy)
            have hAnew : ∀ v, v ∈ visited ++ [n] →
                next_avail_offset ctx st v ≤ max test (next_avail_offset ctx st n) := by
              intro v hv
              rcases List.mem_append.mp hv with hv | hv
              · exact le_trans (le_trans (hA v hv) htest_ge) (le_max_left _ _)
              · rcases List.mem_singleton.mp hv with rfl
                exact le_max_right _ _
            have := ih (visited ++ [n]) (max test (next_avail_offset ctx st n))
              smallest best hsort_rest hAnew hBnew x
            apply this
            rcases hx with hx | hx
            · exact Or.inl (List.mem_append.mpr (Or.inl hx))
            · rcases List.mem_cons.mp hx with rfl | hx
              · exact Or.inl (List.mem_append.mpr (Or.inr (List.mem_singleton.mpr rfl)))
              · exact Or.inr hx
      · -- gap does not fit: advance the runner past `n`
        have heq : best_fit_scan ctx st j s ff (n :: rest) runner smallest best
            = best_fit_scan ctx st j s ff rest
                (max test (next_avail_offset ctx st n)) smallest best := by
          simp only [best_fit_scan, if_pos hgt, ← htest, if_neg hfit]
        rw [heq]
        have hBnew : ∀ o, best = some o → ∀ y,
            (y ∈ visited ++ [n] ∨ y ∈ rest) →
            next_avail_offset ctx st y ≤ o ∨ o + j.size ≤ (st y).offset := by
          intro o ho y hy
          apply hB o ho
          rcases hy with hy | hy
          · rcases List.mem_append.mp hy with hy | hy
            · exact Or.inl hy
            · rcases List.mem_singleton.mp hy with rfl
              exact Or.inr (List.mem_cons_self _ _)
          · exact Or.inr (List.mem_cons_of_mem _ hy)
        have hAnew : ∀ v, v ∈ visited ++ [n] →
            next_avail_offset ctx st v ≤ max test (next_avail_offset ctx st n) := by
          intro v hv
          rcases List.mem_append.mp hv with hv | hv
          · exact le_trans (le_trans (hA v hv) htest_ge) (le_max_left _ _)
          · rcases List.mem_singleton.mp hv with rfl
            exact le_max_right _ _
        have := ih (visited ++ [n]) (max test (next_avail_offset ctx st n))
          smallest best hsort_rest hAnew hBnew x
        apply this
        rcases hx with hx | hx
        · exact Or.inl (List.mem_append.mpr (Or.inl hx))
        · rcases List.mem_cons.mp hx with rfl | hx
          · exact Or.inl (List.mem_append.mpr (Or.inr (List.mem_singleton.mpr rfl)))
          · exact Or.inr hx
    · -- neighbour at or below the runner: just absorb it
      have heq : best_fit_scan ctx st j s ff (n :: rest) runner smallest best
          = best_fit_scan ctx st j s ff rest
              (max runner (next_avail_offset ctx st n)) smallest best := by
        simp only [best_fit_scan, if_neg hgt]
      rw [heq]
      have hBnew : ∀ o, best = some o → ∀ y,
          (y ∈ visited ++ [n] ∨ y ∈ rest) →
          next_avail_offset ctx st y ≤ o ∨ o + j.size ≤ (st y).offset := by
        intro o ho y hy
        apply hB o ho
        rcases hy with hy | hy
        · rcases List.mem_append.mp hy with hy | hy
          · exact Or.inl hy
          · rcases List.mem_singleton.mp hy with rfl
            exact Or.inr (List.mem_cons_self _ _)
        · exact Or.inr (List.mem_cons_of_mem _ hy)
      have hAnew : ∀ v, v ∈ visited ++ [n] →
          next_avail_offset ctx st v ≤ max runner (next_avail_offset ctx st n) := by
        intro v hv
        rcases List.mem_append.mp hv with hv | hv
        · exact le_trans (hA v hv) (le_max_left _ _)
        · rcases List.mem_singleton.mp hv with rfl
          exact le_max_right _ _
      have := ih (visited ++ [n]) (max runner (next_avail_offset ctx st n))
        smallest best hsort_rest hAnew hBnew x
      apply this
      rcases hx with hx | hx
      · exact Or.inl (List.mem_append.mpr (Or.inl hx))
      · rcases List.mem_cons.mp hx with rfl | hx
        · exact Or.inl (List.mem_append.mpr (Or.inr (List.mem_singleton.mpr rfl)))
        · exact Or.inr hx

theorem Job.overlaps_with_symm {a b : Job} (h : a.overlaps_with b) :
    b.overlaps_with a := ⟨h.2, h.1⟩

/-- Master invariant of `do_best_fit`.  If the run does not return the
sentinel, then: untouched ids keep their cells, every popped id is marked
with the current generation, every popped id ends range-disjoint from every
already-marked overlapping outsider, and any two distinct overlapping popped
ids end range-disjoint. -/
theorem do_best_fit_invariant (ctx : BFCtx) (iters lim : Nat) (ff : Bool)
    (s : Nat) :
    ∀ (order : List Nat) (st : Nat → Squeezed) (macc : Nat),
    order.Nodup →
    (∀ i ∈ order, (ctx.job_of i).alignment_ok) →
    (∀ r ∈ order, ∀ m ∈ order, m ≠ r →
        (ctx.job_of r).overlaps_with (ctx.job_of m) → m ∈ ctx.ig r) →
    (∀ r ∈ order, ∀ m, (st m).times_squeezed = iters + 1 → m ≠ r →
        (ctx.job_of r).overlaps_with (ctx.job_of m) → m ∈ ctx.ig r) →
    (do_best_fit ctx iters lim ff s order st macc).1 ≠ USIZE_MAX →
    (∀ x, x ∉ order → (do_best_fit ctx iters lim ff s order st macc).2 x = st x) ∧
    (∀ r ∈ order,
        ((do_best_fit ctx iters lim ff s order st macc).2 r).times_squeezed = iters + 1) ∧
    (∀ r ∈ order, ∀ m, m ∉ order → (st m).times_squeezed = iters + 1 → m ≠ r →
        (ctx.job_of r).overlaps_with (ctx.job_of m) →
        ranges_disjoint ctx (do_best_fit ctx iters lim ff s order st macc).2 r m) ∧
    (∀ r1 ∈ order, ∀ r2 ∈ order, r1 ≠ r2 →
        (ctx.job_of r1).overlaps_with (ctx.job_of r2) →
        ranges_disjoint ctx (do_best_fit ctx iters lim ff s order st macc).2 r1 r2) := by
  intro order
  induction order with
  | nil =>
    intro st macc _ _ _ _ _
    refine ⟨fun x _ => rfl, ?_, ?_, ?_⟩ <;> intro r hr <;> cases hr
  | cons i rest ih =>
    intro st macc hnodup halign hig higm hres
    have hi_rest : i ∉ rest := (List.nodup_cons.mp hnodup).1
    have hrest_nodup : rest.Nodup := (List.nodup_cons.mp hnodup).2
    set off := squeeze_offset ctx st iters ff s i with hoff_def
    set st1 := squeeze_store ctx st iters ff s i with hst1_def
    have hst1_self : st1 i = ⟨off, iters + 1⟩ := squeeze_store_self ctx st iters ff s i
    have hst1_other : ∀ x, x ≠ i → st1 x = st x :=
      fun x hx => squeeze_store_other ctx st iters ff s i x hx
    -- safety of the squeeze of `i` against every marked overlapping neighbour
    have hscan : ∀ m, m ∈ ctx.ig i → (st m).times_squeezed = iters + 1 →
        next_avail_offset ctx st m ≤ off ∨
          off + (ctx.job_of i).size ≤ (st m).offset := by
      intro m hmig hmk
      have hmem : m ∈ sorted_neighbors ctx st iters i := by
        unfold sorted_neighbors
        rw [List.mem_insertionSort]
        refine List.mem_filter.mpr ⟨hmig, ?_⟩
        simp [hmk]
      exact best_fit_scan_safe ctx st (ctx.job_of i) s ff
        (halign i (List.mem_cons_self i rest))
        (sorted_neighbors ctx st iters i) [] 0 USIZE_MAX none
        (List.sorted_insertionSort _ _)
        (by intro v hv; cases hv)
        (by intro o ho; cases ho)
        m (Or.inr hmem)
    -- generic treatment of the two surviving branches
    have key : ∀ macc',
        (do_best_fit ctx iters lim ff s rest st1 macc').1 ≠ USIZE_MAX →
        (∀ x, x ∉ i :: rest →
            (do_best_fit ctx iters lim ff s rest st1 macc').2 x = st x) ∧
        (∀ r ∈ i :: rest,
            ((do_best_fit ctx iters lim ff s rest st1 macc').2 r).times_squeezed
              = iters + 1) ∧
        (∀ r ∈ i :: rest, ∀ m, m ∉ i :: rest → (st m).times_squeezed = iters + 1 →
            m ≠ r → (ctx.job_of r).overlaps_with (ctx.job_of m) →
            ranges_disjoint ctx (do_best_fit ctx iters lim ff s rest st1 macc').2 r m) ∧
        (∀ r1 ∈ i :: rest, ∀ r2 ∈ i :: rest, r1 ≠ r2 →
            (ctx.job_of r1).overlaps_with (ctx.job_of r2) →
            ranges_disjoint ctx (do_best_fit ctx iters lim ff s rest st1 macc').2 r1 r2) := by
      intro macc' hres'
      have higm1 : ∀ r ∈ rest, ∀ m, (st1 m).times_squeezed = iters + 1 → m ≠ r →
          (ctx.job_of r).overlaps_with (ctx.job_of m) → m ∈ ctx.ig r := by
        intro r hr m hmk hne hov
        by_cases hmi : m = i
        · refine hig r (List.mem_cons_of_mem i hr) m ?_ hne hov
          rw [hmi]
          exact List.mem_cons_self i rest
        · rw [hst1_other m hmi] at hmk
          exact higm r (List.mem_cons_of_mem i hr) m hmk hne hov
      obtain ⟨ihca, ihcb, ihcc, ihcd⟩ := ih st1 macc' hrest_nodup
        (fun r hr => halign r (List.mem_cons_of_mem i hr))
        (fun r hr m hm hne hov =>
          hig r (List.mem_cons_of_mem i hr) m (List.mem_cons_of_mem i hm) hne hov)
        higm1 hres'
      refine ⟨?_, ?_, ?_, ?_⟩
      · -- frame
        intro x hx
        have hxi : x ≠ i := fun h => hx (h ▸ List.mem_cons_self i rest)
        have hxr : x ∉ rest := fun h => hx (List.mem_cons_of_mem i h)
        rw [ihca x hxr, hst1_other x hxi]
      · -- marking
        intro r hr
        rcases List.mem_cons.mp hr with rfl | hr
        · rw [ihca r hi_rest, hst1_self]
        · exact ihcb r hr
      · -- disjointness against marked outsiders
        intro r hr m hm hmk hne hov
        have hmi : m ≠ i := fun h => hm (h ▸ List.mem_cons_self i rest)
        have hmr : m ∉ rest := fun h => hm (List.mem_cons_of_mem i h)
        rcases List.mem_cons.mp hr with rfl | hr
        · -- r = i : use the scan safety directly
          have hmig : m ∈ ctx.ig r :=
            higm r (List.mem_cons_self r rest) m hmk hne hov
          have hdisj := hscan m hmig hmk
          have h2r : (do_best_fit ctx iters lim ff s rest st1 macc').2 r = st1 r :=
            ihca r hi_rest
          have h2m : (do_best_fit ctx iters lim ff s rest st1 macc').2 m = st m := by
            rw [ihca m hmr, hst1_other m hmi]
          unfold ranges_disjoint
          rw [h2r, h2m, hst1_self]
          unfold next_avail_offset at hdisj
          rcases hdisj with h | h
          · exact Or.inr h
          · exact Or.inl h
        · -- r in the tail: the tail invariant applies, with `m` still marked
          have hmk1 : (st1 m).times_squeezed = iters + 1 := by
            rw [hst1_other m hmi]; exact hmk
          exact ihcc r hr m hmr hmk1 hne hov
      · -- pairwise disjointness of popped ids
        intro r1 hr1 r2 hr2 hne hov
        rcases List.mem_cons.mp hr1 with h1eq | h1mem
        · rcases List.mem_cons.mp hr2 with h2eq | h2mem
          · exact absurd (h1eq.trans h2eq.symm) hne
          · -- r1 = i, r2 in tail: r2's squeeze avoided the marked id i
            have := ihcc r2 h2mem r1 (by rw [h1eq]; exact hi_rest)
              (by rw [h1eq, hst1_self]) hne
              (Job.overlaps_with_symm hov)
            exact ranges_disjoint_symm this
        · rcases List.mem_cons.mp hr2 with h2eq | h2mem
          · exact ihcc r1 h1mem r2 (by rw [h2eq]; exact hi_rest)
              (by rw [h2eq, hst1_self]) (fun h => hne h.symm) hov
          · exact ihcd r1 h1mem r2 h2mem hne hov
    rw [do_best_fit_cons] at hres ⊢
    split_ifs at hres ⊢ with h1 h2
    · exact absurd rfl hres
    · exact key _ hres
    · exact key _ hres

/-! ## Reference (abort-free) semantics of one best-fit pass -/

/-- The store produced by a best-fit pass that never aborts. -/
def best_fit_trace (ctx : BFCtx) (iters : Nat) (ff : Bool) (s : Nat) :
    List Nat → (Nat → Squeezed) → (Nat → Squeezed)
  | [], st => st
  | i :: rest, st =>
    best_fit_trace ctx iters ff s rest (squeeze_store ctx st iters ff s i)

/-- The running maximum end address of a best-fit pass that never aborts. -/
def best_fit_max (ctx : BFCtx) (iters : Nat) (ff : Bool) (s : Nat) :
    List Nat → (Nat → Squeezed) → Nat → Nat
  | [], _, macc => macc
  | i :: rest, st, macc =>
    best_fit_max ctx iters ff s rest (squeeze_store ctx st iters ff s i)
      (max macc (squeeze_offset ctx st iters ff s i + (ctx.job_of i).size))

theorem best_fit_max_le (ctx : BFCtx) (iters : Nat) (ff : Bool) (s : Nat) :
    ∀ (order : List Nat) (st : Nat → Squeezed) (macc : Nat),
      macc ≤ best_fit_max ctx iters ff s order st macc := by
  intro order
  induction order with
  | nil => intro st macc; exact le_refl macc
  | cons i rest ih =>
    intro st macc
    exact le_trans (le_max_left _ _) (ih _ _)

/-- The abort-free pass marks every popped id with the current generation
and never un-marks anything. -/
theorem best_fit_trace_times (ctx : BFCtx) (iters : Nat) (ff : Bool) (s : Nat) :
    ∀ (order : List Nat) (st : Nat → Squeezed),
    (∀ x, (st x).times_squeezed = iters + 1 →
      (best_fit_trace ctx iters ff s order st x).times_squeezed = iters + 1) ∧
    (∀ i ∈ order,
      (best_fit_trace ctx iters ff s order st i).times_squeezed = iters + 1) := by
  intro order
  induction order with
  | nil => intro st; exact ⟨fun x hx => hx, fun i hi => absurd hi (List.not_mem_nil i)⟩
  | cons i rest ih =>
    intro st
    have hmark : ∀ x, (st x).times_squeezed = iters + 1 →
        ((squeeze_store ctx st iters ff s i) x).times_squeezed = iters + 1 := by
      intro x hx
      by_cases hxi : x = i
      · subst hxi
        rw [squeeze_store_self]
      · rw [squeeze_store_other ctx st iters ff s i x hxi]
        exact hx
    constructor
    · intro x hx
      exact (ih (squeeze_store ctx st iters ff s i)).1 x (hmark x hx)
    · intro r hr
      rcases List.mem_cons.mp hr with heq | hmem
      · refine (ih (squeeze_store ctx st iters ff s i)).1 r ?_
        rw [heq, squeeze_store_self]
      · exact (ih (squeeze_store ctx st iters ff s i)).2 r hmem

/-- Relation between the limited run and the abort-free reference run, for a
starting accumulator within the limit (the callers always start from 0): the
limited run aborts with the sentinel exactly when the reference maximum
exceeds the limit, and otherwise coincides with the reference run. -/
theorem do_best_fit_vs_trace (ctx : BFCtx) (iters lim : Nat) (ff : Bool)
    (s : Nat) :
    ∀ (order : List Nat) (st : Nat → Squeezed) (macc : Nat), macc ≤ lim →
    (best_fit_max ctx iters ff s order st macc > lim →
      (do_best_fit ctx iters lim ff s order st macc).1 = USIZE_MAX) ∧
    (best_fit_max ctx iters ff s order st macc ≤ lim →
      do_best_fit ctx iters lim ff s order st macc =
        (best_fit_max ctx iters ff s order st macc,
          best_fit_trace ctx iters ff s order st)) := by
  intro order
  induction order with
  | nil =>
    intro st macc hmacc
    exact ⟨fun h => absurd hmacc (by simpa [best_fit_max] using h),
      fun _ => rfl⟩
  | cons i rest ih =>
    intro st macc hmacc
    set off := squeeze_offset ctx st iters ff s i with hoff_def
    set st1 := squeeze_store ctx st iters ff s i with hst1_def
    set cand := off + (ctx.job_of i).size with hcand_def
    have hmax_eq : best_fit_max ctx iters ff s (i :: rest) st macc
        = best_fit_max ctx iters ff s rest st1 (max macc cand) := rfl
    have htr_eq : best_fit_trace ctx iters ff s (i :: rest) st
        = best_fit_trace ctx iters ff s rest st1 := rfl
    rw [do_best_fit_cons, hmax_eq, htr_eq]
    by_cases h1 : cand > macc
    · rw [if_pos h1]
      have hmm : max macc cand = cand := by omega
      rw [hmm]
      by_cases h2 : cand > lim
      · rw [if_pos h2]
        constructor
        · intro _; rfl
        · intro hle
          exact absurd (le_trans (best_fit_max_le ctx iters ff s rest st1 cand) hle)
            (by omega)
      · rw [if_neg h2]
        exact ih st1 cand (by omega)
    · rw [if_neg h1]
      have hmm : max macc cand = macc := by omega
      rw [hmm]
      exact ih st1 macc hmacc

/-! ## Claim C1: validity of the placement produced by best-fit squeezing

Every placement the driver returns with a makespan `< usize::MAX` is the
outcome of a `do_best_fit` pass over the registry overlays (directly in the
`SameSizes` and heuristic paths, and as the snapshotted winning trial in the
`NeedsBA` loop), consulting the prelude's interference graph, whose
neighbour sets contain every lifetime-overlapping pair. -/

/-- C1: if `do_best_fit` finishes with a makespan strictly below the
`usize::MAX` sentinel, then any two distinct popped jobs with overlapping
lifetimes are assigned disjoint address ranges `[offset, offset + size)`.
Hypotheses: ids are popped once each, alignments (if any) are positive, the
interference graph contains every overlapping pair among the popped ids, and
no id is pre-marked with the current generation. -/
theorem C1_best_fit_validity (ctx : BFCtx) (iters lim : Nat) (ff : Bool)
    (s : Nat) (order : List Nat) (st : Nat → Squeezed)
    (hnodup : order.Nodup)
    (halign : ∀ i ∈ order, (ctx.job_of i).alignment_ok)
    (hig : ∀ r ∈ order, ∀ m ∈ order, m ≠ r →
      (ctx.job_of r).overlaps_with (ctx.job_of m) → m ∈ ctx.ig r)
    (hfresh : ∀ m, (st m).times_squeezed ≠ iters + 1)
    (hres : (do_best_fit ctx iters lim ff s order st 0).1 < USIZE_MAX) :
    ∀ r1 ∈ order, ∀ r2 ∈ order, r1 ≠ r2 →
      (ctx.job_of r1).overlaps_with (ctx.job_of r2) →
      ranges_disjoint ctx (do_best_fit ctx iters lim ff s order st 0).2 r1 r2 := by
  have hne : (do_best_fit ctx iters lim ff s order st 0).1 ≠ USIZE_MAX :=
    Nat.ne_of_lt hres
  have higm : ∀ r ∈ order, ∀ m, (st m).times_squeezed = iters + 1 → m ≠ r →
      (ctx.job_of r).overlaps_with (ctx.job_of m) → m ∈ ctx.ig r := by
    intro r _ m hm
    exact absurd hm (hfresh m)
  exact (do_best_fit_invariant ctx iters lim ff s order st 0
    hnodup halign hig higm hne).2.2.2

/-- Two small overlapping unaligned jobs, their complete two-sided
interference graph, and a fresh store: a concrete input on which the C1
validity theorem is exercised end to end. -/
def demo_pair_ctx : BFCtx :=
  ⟨fun i => if i = 0 then Job.mk 4 0 2 4 none none 0 0
    else if i = 1 then Job.mk 6 1 3 6 none none 0 1
    else Job.mk 0 0 0 0 none none 0 99,
   fun i => if i = 0 then [1] else if i = 1 then [0] else []⟩

def demo_fresh_store : Nat → Squeezed := fun _ => ⟨0, 0⟩

theorem C1_best_fit_validity_witness :
    ([0, 1] : List Nat).Nodup ∧
    (∀ i ∈ ([0, 1] : List Nat), (demo_pair_ctx.job_of i).alignment_ok) ∧
    (∀ r ∈ ([0, 1] : List Nat), ∀ m ∈ ([0, 1] : List Nat), m ≠ r →
      (demo_pair_ctx.job_of r).overlaps_with (demo_pair_ctx.job_of m) →
      m ∈ demo_pair_ctx.ig r) ∧
    (∀ m, (demo_fresh_store m).times_squeezed ≠ 0 + 1) ∧
    (do_best_fit demo_pair_ctx 0 USIZE_MAX false 0 [0, 1] demo_fresh_store 0).1
      < USIZE_MAX ∧
    (∀ r1 ∈ ([0, 1] : List Nat), ∀ r2 ∈ ([0, 1] : List Nat), r1 ≠ r2 →
      (demo_pair_ctx.job_of r1).overlaps_with (demo_pair_ctx.job_of r2) →
      ranges_disjoint demo_pair_ctx
        (do_best_fit demo_pair_ctx 0 USIZE_MAX false 0 [0, 1] demo_fresh_store 0).2
        r1 r2) :=
  ⟨by decide, by decide, by decide,
    fun _ => (by decide : (0 : Nat) ≠ 0 + 1), by decide,
    C1_best_fit_validity demo_pair_ctx 0 USIZE_MAX false 0 [0, 1]
      demo_fresh_store (by decide) (by decide) (by decide)
      (fun _ => (by decide : (0 : Nat) ≠ 0 + 1)) (by decide)⟩

/-! ## Claim C3: alignment correction -/

/-- Ceiling division of a non-multiple: `⌈x / a⌉ = x / a + 1`. -/
theorem ceil_div_of_not_dvd (x a : Nat) (ha : 0 < a) (h : x % a ≠ 0) :
    (x + a - 1) / a = x / a + 1 := by
  have hdm := Nat.div_add_mod x a
  have hrlt := Nat.mod_lt x ha
  have hr : 0 < x % a := Nat.pos_of_ne_zero h
  have hx : x + a - 1 = (x % a - 1) + (x / a + 1) * a := by
    have hexp : (x / a + 1) * a = a * (x / a) + a := by ring
    omega
  rw [hx, Nat.add_mul_div_right _ _ ha, Nat.div_eq_of_lt (by omega)]
  omega

/-- C3 (amended): the claimed formula for `get_corrected_offset` holds, and
every offset *it returns* satisfies `(start_address + offset) % a = 0`.  The
"consequently every placement is aligned" half of the claim is false, because
`do_best_fit` places a job at the raw `offset_runner` when no gap fits (see
the counterexample). -/
theorem C3_alignment_correction (j : Job) (s c a : Nat)
    (hal : j.alignment = some a) (hpos : 0 < a) :
    ((s + c = 0 ∨ (s + c) % a = 0) → get_corrected_offset j s c = c) ∧
    ((s + c) % a ≠ 0 → s + c < a → get_corrected_offset j s c = a - s) ∧
    ((s + c) % a ≠ 0 → a ≤ s + c →
      get_corrected_offset j s c = (s + c + a - 1) / a * a - s) ∧
    (s + get_corrected_offset j s c) % a = 0 := by
  refine ⟨?_, ?_, ?_, get_corrected_offset_aligned j s c a hal hpos⟩
  · intro h
    rw [get_corrected_offset_some j s c a hal, if_pos h]
  · intro hne hlt
    rw [get_corrected_offset_some j s c a hal,
      if_neg (by
        push_neg
        exact ⟨fun h0 => hne (by rw [h0, Nat.zero_mod]), hne⟩), if_pos hlt]
  · intro hne hge
    rw [get_corrected_offset_some j s c a hal,
      if_neg (by
        push_neg
        exact ⟨fun h0 => hne (by rw [h0, Nat.zero_mod]), hne⟩), if_neg (by omega),
      ceil_div_of_not_dvd (s + c) a hpos hne]

theorem C3_alignment_correction_witness :
    ((Job.mk 3 0 2 3 (some 4) none 0 0).alignment = some 4) ∧ 0 < 4 ∧
    (((1 + 2 = 0 ∨ (1 + 2) % 4 = 0) →
        get_corrected_offset (Job.mk 3 0 2 3 (some 4) none 0 0) 1 2 = 2) ∧
      ((1 + 2) % 4 ≠ 0 → 1 + 2 < 4 →
        get_corrected_offset (Job.mk 3 0 2 3 (some 4) none 0 0) 1 2 = 4 - 1) ∧
      ((1 + 2) % 4 ≠ 0 → 4 ≤ 1 + 2 →
        get_corrected_offset (Job.mk 3 0 2 3 (some 4) none 0 0) 1 2
          = (1 + 2 + 4 - 1) / 4 * 4 - 1) ∧
      (1 + get_corrected_offset (Job.mk 3 0 2 3 (some 4) none 0 0) 1 2) % 4 = 0) :=
  ⟨rfl, by decide,
    C3_alignment_correction (Job.mk 3 0 2 3 (some 4) none 0 0) 1 2 4 rfl (by decide)⟩

/-- A single job with alignment 2 placed by best-fit from start address 1:
it has no placed neighbours, so it is placed at the raw top `offset_runner =
0`, and `(start_address + offset) % alignment = 1 ≠ 0` — refuting the claim
that every placement produced by the driver respects alignment. -/
def demo_misaligned_ctx : BFCtx :=
  ⟨fun _ => Job.mk 1 0 2 1 (some 2) none 0 0, fun _ => []⟩

theorem C3_counterexample :
    ((demo_misaligned_ctx.job_of 0).alignment = some 2) ∧
    (do_best_fit demo_misaligned_ctx 0 USIZE_MAX true 1 [0] demo_fresh_store 0).1
      = 1 ∧
    ((do_best_fit demo_misaligned_ctx 0 USIZE_MAX true 1 [0] demo_fresh_store 0).2
        0).offset = 0 ∧
    (1 + ((do_best_fit demo_misaligned_ctx 0 USIZE_MAX true 1 [0]
        demo_fresh_store 0).2 0).offset) % 2 ≠ 0 := by
  refine ⟨rfl, by decide, by decide, by decide⟩

/-! ## Claim C6: sentinel semantics of `do_best_fit` -/

/-- C6 (amended): starting from accumulator 0, `do_best_fit` returns the
sentinel `USIZE_MAX` iff the reference (abort-free) running maximum exceeds
`makespan_lim` *or that maximum equals `USIZE_MAX` itself* (in which case the
value is returned as an ordinary makespan without any limit violation);
otherwise it returns the reference maximum, which is at most `makespan_lim`,
with every popped job marked `times_squeezed = iters_done + 1`. -/
theorem C6_sentinel_semantics (ctx : BFCtx) (iters lim : Nat) (ff : Bool)
    (s : Nat) (order : List Nat) (st : Nat → Squeezed) :
    ((do_best_fit ctx iters lim ff s order st 0).1 = USIZE_MAX ↔
      (best_fit_max ctx iters ff s order st 0 > lim ∨
        best_fit_max ctx iters ff s order st 0 = USIZE_MAX)) ∧
    ((do_best_fit ctx iters lim ff s order st 0).1 ≠ USIZE_MAX →
      (do_best_fit ctx iters lim ff s order st 0).1
          = best_fit_max ctx iters ff s order st 0 ∧
        (do_best_fit ctx iters lim ff s order st 0).1 ≤ lim ∧
        ∀ i ∈ order,
          ((do_best_fit ctx iters lim ff s order st 0).2 i).times_squeezed
            = iters + 1) := by
  obtain ⟨habort, hsame⟩ :=
    do_best_fit_vs_trace ctx iters lim ff s order st 0 (Nat.zero_le lim)
  by_cases hgt : best_fit_max ctx iters ff s order st 0 > lim
  · have h1 := habort hgt
    constructor
    · exact ⟨fun _ => Or.inl hgt, fun _ => h1⟩
    · intro hne
      exact absurd h1 hne
  · push_neg at hgt
    have heq := hsame hgt
    rw [heq]
    constructor
    · simp only [ne_eq]
      constructor
      · intro h
        exact Or.inr h
      · intro h
        rcases h with h | h
        · omega
        · exact h
    · intro hne
      refine ⟨rfl, hgt, ?_⟩
      intro i hi
      exact (best_fit_trace_times ctx iters ff s order st).2 i hi

theorem C6_sentinel_semantics_witness :
    (do_best_fit demo_pair_ctx 0 5 false 0 [0, 1] demo_fresh_store 0).1
        = USIZE_MAX ∧
    best_fit_max demo_pair_ctx 0 false 0 [0, 1] demo_fresh_store 0 = 10 ∧
    ((do_best_fit demo_pair_ctx 0 5 false 0 [0, 1] demo_fresh_store 0).1
        = USIZE_MAX ↔
      (best_fit_max demo_pair_ctx 0 false 0 [0, 1] demo_fresh_store 0 > 5 ∨
        best_fit_max demo_pair_ctx 0 false 0 [0, 1] demo_fresh_store 0
          = USIZE_MAX)) :=
  ⟨by decide, by decide,
    (C6_sentinel_semantics demo_pair_ctx 0 5 false 0 [0, 1] demo_fresh_store).1⟩

/-- A job whose end address is exactly `usize::MAX`, best-fitted with
`makespan_lim = usize::MAX` (the heuristic's configuration): the sentinel
value is returned as the genuine final maximum even though the running
maximum never exceeds the limit — refuting the claimed "if and only if". -/
def demo_huge_ctx : BFCtx :=
  ⟨fun _ => Job.mk (2 ^ 64 - 1) 0 1 (2 ^ 64 - 1) none none 0 0, fun _ => []⟩

theorem C6_counterexample :
    (do_best_fit demo_huge_ctx 0 USIZE_MAX true 0 [0] demo_fresh_store 0).1
        = USIZE_MAX ∧
    best_fit_max demo_huge_ctx 0 true 0 [0] demo_fresh_store 0 ≤ USIZE_MAX := by
  refine ⟨by decide, by decide⟩

/-! ## Claim C2: the gatekeeper -/

/-- C2: the gatekeeper does *not* reject every §3-invariant violation.  A
job carrying a valid (nonzero) alignment skips the originality and
`req_size ≤ size` checks entirely, because those checks sit in the `else`
branches of the `if let Some(a) = j.alignment` arm.  The concrete job below
has `req_size = 2 > size = 1` and is accepted, contradicting both the claim
and `init`'s own documentation ("allocated job size is equal or greater to
the requested one"). -/
theorem C2_gatekeeper_accepts_invalid_job :
    (Job.mk 1 0 2 2 (some 4) none 0 0).size
        < (Job.mk 1 0 2 2 (some 4) none 0 0).req_size ∧
    init [Job.mk 1 0 2 2 (some 4) none 0 0]
      = .ok [Job.mk 1 0 2 2 (some 4) none 0 0] :=
  ⟨by decide, rfl⟩

/-! ## Claim C5: open liveness and Death-before-Birth event order -/

/-- C5: liveness is the open interval `(birth, death)` — touching jobs with
`a.death = b.birth` never overlap — and the event stream is sorted by
ascending time with every Death preceding every Birth at equal times, so a
dying job is always processed before a job born at the same instant. -/
theorem C5_open_liveness_event_order :
    (∀ a b : Job, a.death = b.birth → ¬ a.overlaps_with b) ∧
    ∀ jobs : List Job, (get_events jobs).Pairwise (fun e1 e2 =>
      e1.time < e2.time ∨
        (e1.time = e2.time ∧
          (e1.evt_t = EventKind.death ∨ e2.evt_t = EventKind.birth))) := by
  constructor
  · intro a b hab hov
    have h2 := hov.2
    omega
  · intro jobs
    have hs := get_events_sorted jobs
    refine hs.imp ?_
    intro e1 e2 h
    unfold eventLE event_key at h
    cases h1 : e1.evt_t <;> cases h2 : e2.evt_t <;> rw [h1, h2] at h <;>
      simp only [kind_rank] at h
    · rcases Nat.lt_or_ge e1.time e2.time with h' | h'
      · exact Or.inl h'
      · exact Or.inr ⟨by omega, Or.inr rfl⟩
    · exact Or.inl (by omega)
    · rcases Nat.lt_or_ge e1.time e2.time with h' | h'
      · exact Or.inl h'
      · exact Or.inr ⟨by omega, Or.inl rfl⟩
    · rcases Nat.lt_or_ge e1.time e2.time with h' | h'
      · exact Or.inl h'
      · exact Or.inr ⟨by omega, Or.inl rfl⟩

theorem C5_open_liveness_event_order_witness :
    ((Job.mk 5 0 1 5 none none 0 0).death = (Job.mk 7 1 3 7 none none 0 1).birth) ∧
    (¬ (Job.mk 5 0 1 5 none none 0 0).overlaps_with (Job.mk 7 1 3 7 none none 0 1)) ∧
    (get_events [Job.mk 5 0 1 5 none none 0 0,
        Job.mk 7 1 3 7 none none 0 1]).Pairwise (fun e1 e2 =>
      e1.time < e2.time ∨
        (e1.time = e2.time ∧
          (e1.evt_t = EventKind.death ∨ e2.evt_t = EventKind.birth))) :=
  ⟨rfl,
    C5_open_liveness_event_order.1 (Job.mk 5 0 1 5 none none 0 0)
      (Job.mk 7 1 3 7 none none 0 1) rfl,
    C5_open_liveness_event_order.2 [Job.mk 5 0 1 5 none none 0 0,
      Job.mk 7 1 3 7 none none 0 1]⟩

/-! ## Claim C10: totality of `get_load` -/

/-- `jobset.rs::get_load`: event sweep adding sizes at births and subtracting
at deaths while tracking the maximum.  The `checked_sub` panic branch
("Almost overflowed load!") is modelled as `none`. -/
def get_load_aux : List Event → Nat → Nat → Option Nat
  | [], _, mx => some mx
  | e :: rest, running, mx =>
    match e.evt_t with
    | .birth =>
      get_load_aux rest (running + e.job.size)
        (if running + e.job.size > mx then running + e.job.size else mx)
    | .death =>
      if e.job.size ≤ running then get_load_aux rest (running - e.job.size) mx
      else none

def get_load (jobs : List Job) : Option Nat :=
  get_load_aux (get_events jobs) 0 0

/-- The (birth, death, size) triple of a job: the data the load sweep needs. -/
def job_key (j : Job) : Nat × Nat × Nat := (j.birth, j.death, j.size)

/-- Keys of the birth events of an event list, as a multiset. -/
def births_keys (l : List Event) : Multiset (Nat × Nat × Nat) :=
  ((l.filter (fun e => e.evt_t == EventKind.birth)).map (fun e => job_key e.job) :
    List (Nat × Nat × Nat))

/-- Keys of the death events of an event list, as a multiset. -/
def deaths_keys (l : List Event) : Multiset (Nat × Nat × Nat) :=
  ((l.filter (fun e => e.evt_t == EventKind.death)).map (fun e => job_key e.job) :
    List (Nat × Nat × Nat))

/-- An event records the time its own job attribute designates, and its job
is well formed. -/
def event_consistent (e : Event) : Prop :=
  (e.evt_t = EventKind.birth → e.time = e.job.birth) ∧
  (e.evt_t = EventKind.death → e.time = e.job.death) ∧ e.job.wf

/-- No underflow in the load sweep: along a sorted, consistent event list in
which deaths are covered by the alive multiset plus the upcoming births, the
running subtraction always succeeds. -/
theorem get_load_aux_isSome :
    ∀ (l : List Event) (A : Multiset (Nat × Nat × Nat)) (running mx : Nat),
    List.Sorted eventLE l →
    (∀ e ∈ l, event_consistent e) →
    deaths_keys l ≤ A + births_keys l →
    running = (A.map (fun k => k.2.2)).sum →
    (get_load_aux l running mx).isSome := by
  intro l
  induction l with
  | nil =>
    intro A running mx _ _ _ _
    simp [get_load_aux]
  | cons e rest ih =>
    intro A running mx hsort hcons hle hrun
    have hsort_rest : List.Sorted eventLE rest := hsort.of_cons
    have hcons_rest : ∀ x ∈ rest, event_consistent x :=
      fun x hx => hcons x (List.mem_cons_of_mem e hx)
    cases hk : e.evt_t with
    | birth =>
      have hbk : births_keys (e :: rest) = job_key e.job ::ₘ births_keys rest := by
        unfold births_keys
        simp [List.filter_cons, hk]
      have hdk : deaths_keys (e :: rest) = deaths_keys rest := by
        unfold deaths_keys
        simp [List.filter_cons, hk]
      have heq : get_load_aux (e :: rest) running mx
          = get_load_aux rest (running + e.job.size)
              (if running + e.job.size > mx then running + e.job.size else mx) := by
        simp only [get_load_aux, hk]
      rw [heq]
      apply ih (job_key e.job ::ₘ A) (running + e.job.size) _ hsort_rest hcons_rest
      · rw [hdk] at hle
        rw [hbk] at hle
        calc deaths_keys rest ≤ A + (job_key e.job ::ₘ births_keys rest) := hle
          _ = (job_key e.job ::ₘ A) + births_keys rest := by
              rw [Multiset.add_cons, Multiset.cons_add]
      · rw [Multiset.map_cons, Multiset.sum_cons, hrun]
        simp [job_key]
        omega
    | death =>
      have hconsE := hcons e (List.mem_cons_self e rest)
      have htime : e.time = e.job.death := hconsE.2.1 hk
      have hwfE : e.job.wf := hconsE.2.2
      have hbk : births_keys (e :: rest) = births_keys rest := by
        unfold births_keys
        simp [List.filter_cons, hk]
      have hdk : deaths_keys (e :: rest) = job_key e.job ::ₘ deaths_keys rest := by
        unfold deaths_keys
        simp [List.filter_cons, hk]
      rw [hbk, hdk] at hle
      -- the dying job's key must already be alive
      have hmem : job_key e.job ∈ A := by
        have hm : job_key e.job ∈ A + births_keys rest :=
          Multiset.mem_of_le hle (Multiset.mem_cons_self _ _)
        rcases Multiset.mem_add.mp hm with hm | hm
        · exact hm
        · -- impossible: a later birth of the same job would precede its death
          exfalso
          unfold births_keys at hm
          rw [Multiset.mem_coe, List.mem_map] at hm
          obtain ⟨b, hbmem, hbkey⟩ := hm
          have hbfil := List.mem_filter.mp hbmem
          have hbkind : b.evt_t = EventKind.birth := by
            have := hbfil.2
            simpa using this
          have hbcons := hcons_rest b hbfil.1
          have hbtime : b.time = b.job.birth := hbcons.1 hbkind
          have hrel := List.rel_of_sorted_cons hsort b hbfil.1
          unfold eventLE event_key at hrel
          rw [hk, hbkind] at hrel
          simp only [kind_rank] at hrel
          have hbirth_eq : b.job.birth = e.job.birth := by
            unfold job_key at hbkey
            have := congrArg Prod.fst hbkey
            simpa using this
          have hwf := hwfE
          unfold Job.wf at hwf
          omega
      -- so the subtraction succeeds
      have hsize_le : e.job.size ≤ running := by
        rw [hrun]
        have : (job_key e.job).2.2 ∈ A.map (fun k => k.2.2) :=
          Multiset.mem_map_of_mem _ hmem
        exact Multiset.single_le_sum (fun x _ => Nat.zero_le x) _ this
      have heq : get_load_aux (e :: rest) running mx
          = get_load_aux rest (running - e.job.size) mx := by
        simp only [get_load_aux, hk, if_pos hsize_le]
      rw [heq]
      have hA : A = job_key e.job ::ₘ A.erase (job_key e.job) :=
        (Multiset.cons_erase hmem).symm
      apply ih (A.erase (job_key e.job)) (running - e.job.size) mx hsort_rest
        hcons_rest
      · have : job_key e.job ::ₘ deaths_keys rest ≤
            job_key e.job ::ₘ (A.erase (job_key e.job) + births_keys rest) := by
          calc job_key e.job ::ₘ deaths_keys rest
              ≤ A + births_keys rest := hle
            _ = job_key e.job ::ₘ (A.erase (job_key e.job) + births_keys rest) := by
                conv_lhs => rw [hA]
                rw [Multiset.cons_add]
        exact (Multiset.cons_le_cons_iff _).mp this
      · have hsum : (A.map (fun k => k.2.2)).sum
            = e.job.size + ((A.erase (job_key e.job)).map (fun k => k.2.2)).sum := by
          conv_lhs => rw [hA]
          rw [Multiset.map_cons, Multiset.sum_cons]
          simp [job_key]
        omega

theorem deaths_le_births_flat :
    ∀ jobs : List Job,
      deaths_keys (jobs.flatMap job_events) ≤ births_keys (jobs.flatMap job_events) := by
  intro jobs
  induction jobs with
  | nil => simp [births_keys, deaths_keys]
  | cons j rest ih =>
    have hfb : births_keys ((j :: rest).flatMap job_events)
        = job_key j ::ₘ births_keys (rest.flatMap job_events) := by
      unfold births_keys job_events
      simp [List.filter_cons]
    have hfd : deaths_keys ((j :: rest).flatMap job_events)
        = job_key j ::ₘ deaths_keys (rest.flatMap job_events) := by
      unfold deaths_keys job_events
      simp [List.filter_cons]
    rw [hfb, hfd]
    exact Multiset.cons_le_cons _ ih

/-- All death keys of a job list's event stream are covered by its birth
keys (each job contributes exactly one of each). -/
theorem deaths_le_births (jobs : List Job) :
    deaths_keys (get_events jobs) ≤ 0 + births_keys (get_events jobs) := by
  have hperm := get_events_perm jobs
  have hble : births_keys (get_events jobs) = births_keys (jobs.flatMap job_events) := by
    unfold births_keys
    exact Multiset.coe_eq_coe.mpr ((hperm.filter _).map _)
  have hdle : deaths_keys (get_events jobs) = deaths_keys (jobs.flatMap job_events) := by
    unfold deaths_keys
    exact Multiset.coe_eq_coe.mpr ((hperm.filter _).map _)
  rw [hble, hdle, zero_add]
  exact deaths_le_births_flat jobs

/-- C10: for well-formed jobs (birth strictly before death), `get_load` is
total — the `checked_sub` at every Death event succeeds and the
"Almost overflowed load!" panic branch is unreachable. -/
theorem C10_get_load_total (jobs : List Job) (hwf : ∀ j ∈ jobs, j.wf) :
    (get_load jobs).isSome := by
  unfold get_load
  apply get_load_aux_isSome (get_events jobs) 0 0 0 (get_events_sorted jobs)
  · intro e he
    rw [mem_get_events] at he
    rw [List.mem_flatMap] at he
    obtain ⟨j, hj, hje⟩ := he
    unfold job_events at hje
    rcases List.mem_cons.mp hje with heq | hje
    · rw [heq]
      refine ⟨fun _ => rfl, ?_, hwf j hj⟩
      intro h
      exact EventKind.noConfusion h
    · rw [List.mem_singleton.mp hje]
      refine ⟨?_, fun _ => rfl, hwf j hj⟩
      intro h
      exact EventKind.noConfusion h
  · exact deaths_le_births jobs
  · simp

theorem C10_get_load_total_witness :
    (∀ j ∈ [Job.mk 4 0 2 4 none none 0 0, Job.mk 6 1 3 6 none none 0 1], j.wf) ∧
    (get_load [Job.mk 4 0 2 4 none none 0 0, Job.mk 6 1 3 6 none none 0 1]).isSome :=
  ⟨by decide,
    C10_get_load_total [Job.mk 4 0 2 4 none none 0 0, Job.mk 6 1 3 6 none none 0 1]
      (by decide)⟩

/-! ## Claim C7: the `NoOverlap` branch of the driver -/

/-- The overlap detector of `analyze.rs::prelude_analysis`: overlap exists
iff two Births are popped consecutively with no Death in between. -/
def overlap_exists_aux : List Event → Bool → Bool
  | [], _ => false
  | e :: rest, last_was_birth =>
    match e.evt_t with
    | .birth => if last_was_birth then true else overlap_exists_aux rest true
    | .death => overlap_exists_aux rest false

def overlap_exists (jobs : List Job) : Bool :=
  overlap_exists_aux (get_events jobs) false

/-- `jobset.rs::get_max_size` (`None` models the `unwrap` panic on an empty
set). -/
def get_max_size (jobs : List Job) : Option Nat :=
  (jobs.map Job.size).max?

/-- The `NoOverlap` arm of `idealloc`: every job is placed at offset 0
corrected for its alignment, and the reported makespan is the maximum job
size. -/
def idealloc_no_overlap (jobs : List Job) (start_address : Nat) :
    List (Nat × Nat) × Nat :=
  (jobs.map (fun j => (j.id, get_corrected_offset j start_address 0)),
    (get_max_size jobs).getD 0)

/-- Model of the `idealloc` driver: the prelude's event sweep decides whether
any overlap exists; if not, the trivial `NoOverlap` arm runs.  The
`SameSizes` and `NeedsBA` arms (interference graph, floats, RNG, rayon) are
abstracted as the `non_trivial` parameter, over which the theorems
quantify. -/
def idealloc (non_trivial : List Job → Nat → List (Nat × Nat) × Nat)
    (jobs : List Job) (start_address : Nat) : List (Nat × Nat) × Nat :=
  if overlap_exists jobs then non_trivial jobs start_address
  else idealloc_no_overlap jobs start_address

/-- If the detector fires, the event list contains two consecutive Births
(or starts with a Birth while the flag was already set). -/
theorem overlap_exists_aux_eq_true :
    ∀ (l : List Event) (b : Bool), overlap_exists_aux l b = true →
      (∃ l1 e1 e2 l2, l = l1 ++ e1 :: e2 :: l2 ∧
        e1.evt_t = EventKind.birth ∧ e2.evt_t = EventKind.birth) ∨
      (b = true ∧ ∃ e l2, l = e :: l2 ∧ e.evt_t = EventKind.birth) := by
  intro l
  induction l with
  | nil => intro b h; simp [overlap_exists_aux] at h
  | cons e rest ih =>
    intro b h
    cases hk : e.evt_t with
    | birth =>
      cases b with
      | true => exact Or.inr ⟨rfl, e, rest, rfl, hk⟩
      | false =>
        have h' : overlap_exists_aux rest true = true := by
          simpa [overlap_exists_aux, hk] using h
        rcases ih true h' with ⟨l1, e1, e2, l2, hsplit, h1, h2⟩ | ⟨_, e', l2, hsplit, h1⟩
        · exact Or.inl ⟨e :: l1, e1, e2, l2, by simp [hsplit], h1, h2⟩
        · exact Or.inl ⟨[], e, e', l2, by simp [hsplit], hk, h1⟩
    | death =>
      have h' : overlap_exists_aux rest false = true := by
        simpa [overlap_exists_aux, hk] using h
      rcases ih false h' with ⟨l1, e1, e2, l2, hsplit, h1, h2⟩ | ⟨hb, _⟩
      · exact Or.inl ⟨e :: l1, e1, e2, l2, by simp [hsplit], h1, h2⟩
      · exact absurd hb (by simp)

/-- A birth event of the raw stream is literally the birth record of one of
the jobs. -/
theorem mem_flatMap_birth {jobs : List Job} {e : Event}
    (he : e ∈ jobs.flatMap job_events) (hk : e.evt_t = EventKind.birth) :
    ∃ j ∈ jobs, e = ⟨j, EventKind.birth, j.birth⟩ := by
  rw [List.mem_flatMap] at he
  obtain ⟨j, hj, hje⟩ := he
  unfold job_events at hje
  rcases List.mem_cons.mp hje with heq | hje
  · exact ⟨j, hj, heq⟩
  · rw [List.mem_singleton.mp hje] at hk
    exact EventKind.noConfusion hk

/-- Recognizer of the birth event of the job with id `i`. -/
def is_birth_of (i : Nat) (e : Event) : Bool :=
  e.evt_t == EventKind.birth && e.job.id == i

/-- Counting birth events of id `i` in the raw stream counts the jobs whose
id is `i`. -/
theorem countP_birth_of (jobs : List Job) (i : Nat) :
    (jobs.flatMap job_events).countP (is_birth_of i)
      = (jobs.map Job.id).countP (fun x => x == i) := by
  induction jobs with
  | nil => simp
  | cons j rest ih =>
    have hstep : (j :: rest).flatMap job_events
        = job_events j ++ rest.flatMap job_events := rfl
    rw [hstep, List.countP_append, ih]
    have hje : (job_events j).countP (is_birth_of i)
        = if j.id == i then 1 else 0 := by
      unfold job_events is_birth_of
      by_cases hj : j.id = i <;> simp [List.countP_cons, hj]
    rw [hje]
    by_cases hj : j.id = i <;> simp [List.countP_cons, hj, Nat.add_comm]

/-- A duplicate-free list has at most one occurrence of any value. -/
theorem countP_eq_le_one_of_nodup (l : List Nat) (hl : l.Nodup) (i : Nat) :
    l.countP (fun x => x == i) ≤ 1 := by
  induction l with
  | nil => simp
  | cons x rest ih =>
    have hx : x ∉ rest := (List.nodup_cons.mp hl).1
    have hrest := ih (List.nodup_cons.mp hl).2
    rw [List.countP_cons]
    by_cases hxi : x = i
    · have hzero : rest.countP (fun y => y == i) = 0 := by
        rw [List.countP_eq_zero]
        intro a ha
        simp only [beq_iff_eq]
        intro hai
        exact hx (by rw [hxi, ← hai]; exact ha)
      simp [hzero, hxi]
    · simp [hxi, hrest]

/-- With well-formed jobs, unique ids and pairwise non-overlapping
lifetimes, the prelude's overlap detector never fires. -/
theorem no_overlap_detector_false (jobs : List Job)
    (hwf : ∀ j ∈ jobs, j.wf)
    (hids : (jobs.map Job.id).Nodup)
    (hnov : List.Pairwise (fun a b => ¬ a.overlaps_with b) jobs) :
    overlap_exists jobs = false := by
  by_contra hcon
  have htrue : overlap_exists jobs = true := by
    cases h : overlap_exists jobs
    · exact absurd h hcon
    · rfl
  unfold overlap_exists at htrue
  rcases overlap_exists_aux_eq_true (get_events jobs) false htrue with
    ⟨l1, e1, e2, l2, hsplit, hk1, hk2⟩ | ⟨hb, _⟩
  swap
  · exact absurd hb (by simp)
  have hsorted := get_events_sorted jobs
  have hperm := get_events_perm jobs
  -- the two adjacent birth events are birth records of jobs j1, j2
  have he1mem : e1 ∈ jobs.flatMap job_events := by
    refine hperm.mem_iff.mp ?_
    rw [hsplit]
    simp
  have he2mem : e2 ∈ jobs.flatMap job_events := by
    refine hperm.mem_iff.mp ?_
    rw [hsplit]
    simp
  obtain ⟨j1, hj1, he1⟩ := mem_flatMap_birth he1mem hk1
  obtain ⟨j2, hj2, he2⟩ := mem_flatMap_birth he2mem hk2
  have hwf1 : j1.wf := hwf j1 hj1
  have hwf2 : j2.wf := hwf j2 hj2
  -- j1's death event sits somewhere in the sorted stream
  have hdmem : (⟨j1, EventKind.death, j1.death⟩ : Event) ∈ get_events jobs := by
    refine hperm.mem_iff.mpr ?_
    rw [List.mem_flatMap]
    exact ⟨j1, hj1, by simp [job_events]⟩
  rw [hsplit] at hsorted hdmem
  have hpw := List.pairwise_append.mp hsorted
  have hcross := hpw.2.2
  have hmid := hpw.2.1
  -- locate j1's death relative to the adjacent pair
  have hdpos : (⟨j1, EventKind.death, j1.death⟩ : Event) ∈ l1 ∨
      (⟨j1, EventKind.death, j1.death⟩ : Event) ∈ l2 := by
    rcases List.mem_append.mp hdmem with h | h
    · exact Or.inl h
    · rcases List.mem_cons.mp h with h | h
      · rw [he1] at h
        exact absurd (congrArg Event.evt_t h) (by simp)
      · rcases List.mem_cons.mp h with h | h
        · rw [he2] at h
          exact absurd (congrArg Event.evt_t h) (by simp)
        · exact Or.inr h
  rcases hdpos with hd | hd
  · -- death of j1 before its own birth: impossible
    have := hcross _ hd e1 (List.mem_cons_self _ _)
    unfold eventLE event_key at this
    rw [he1] at this
    simp [kind_rank] at this
    unfold Job.wf at hwf1
    omega
  · -- death of j1 after the second birth: the two jobs overlap
    have hle12 := List.rel_of_sorted_cons hmid e2 (List.mem_cons_self _ _)
    have hle2d := List.rel_of_sorted_cons hmid.of_cons _ hd
    unfold eventLE event_key at hle12 hle2d
    rw [he1, he2] at hle12
    rw [he2] at hle2d
    simp [kind_rank] at hle12 hle2d
    have hov : j1.overlaps_with j2 := by
      unfold Job.overlaps_with Job.wf at *
      omega
    -- unique ids force the two entries to be distinct
    have hne : j1 ≠ j2 := by
      intro heq12
      -- then the birth event of this id occurs twice in the stream
      have hcnt : 2 ≤ (l1 ++ e1 :: e2 :: l2).countP (is_birth_of j1.id) := by
        rw [List.countP_append, List.countP_cons, List.countP_cons, he1, he2]
        have h1 : is_birth_of j1.id ⟨j1, EventKind.birth, j1.birth⟩ = true := by
          simp [is_birth_of]
        have h2 : is_birth_of j1.id ⟨j2, EventKind.birth, j2.birth⟩ = true := by
          simp [is_birth_of, heq12]
        rw [h1, h2]
        simp
        omega
      have hpermtag : (l1 ++ e1 :: e2 :: l2).countP (is_birth_of j1.id)
          = (jobs.flatMap job_events).countP (is_birth_of j1.id) := by
        refine List.Perm.countP_eq _ ?_
        rw [← hsplit]
        exact hperm
      rw [hpermtag, countP_birth_of] at hcnt
      have := countP_eq_le_one_of_nodup (jobs.map Job.id) hids j1.id
      omega
    have hsymm : Symmetric (fun a b : Job => ¬ a.overlaps_with b) := by
      intro a b hab hba
      exact hab (Job.overlaps_with_symm hba)
    exact hnov.forall hsymm hj1 hj2 hne hov

/-- C7: on any well-formed input with unique ids in which no two jobs
overlap, the driver takes the `NoOverlap` branch — regardless of what the
non-trivial arms would compute — assigning every job offset 0 corrected for
its alignment and reporting the maximum job size as the makespan. -/
theorem C7_no_overlap_branch (jobs : List Job)
    (non_trivial : List Job → Nat → List (Nat × Nat) × Nat) (s : Nat)
    (hne : jobs ≠ [])
    (hwf : ∀ j ∈ jobs, j.wf)
    (hids : (jobs.map Job.id).Nodup)
    (hnov : List.Pairwise (fun a b => ¬ a.overlaps_with b) jobs) :
    ∃ m, get_max_size jobs = some m ∧
      idealloc non_trivial jobs s
        = (jobs.map (fun j => (j.id, get_corrected_offset j s 0)), m) := by
  have hdet := no_overlap_detector_false jobs hwf hids hnov
  have hmax : ∃ m, get_max_size jobs = some m := by
    unfold get_max_size
    cases h : (jobs.map Job.size).max? with
    | some m => exact ⟨m, rfl⟩
    | none =>
      rw [List.max?_eq_none_iff] at h
      rw [List.map_eq_nil_iff] at h
      exact absurd h hne
  obtain ⟨m, hm⟩ := hmax
  refine ⟨m, hm, ?_⟩
  simp [idealloc, hdet, idealloc_no_overlap, hm]

theorem C7_no_overlap_branch_witness :
    (([Job.mk 10 0 1 10 none none 0 0, Job.mk 20 2 3 20 none none 0 1,
        Job.mk 5 4 5 5 none none 0 2] : List Job) ≠ []) ∧
    (∀ j ∈ [Job.mk 10 0 1 10 none none 0 0, Job.mk 20 2 3 20 none none 0 1,
        Job.mk 5 4 5 5 none none 0 2], j.wf) ∧
    (([Job.mk 10 0 1 10 none none 0 0, Job.mk 20 2 3 20 none none 0 1,
        Job.mk 5 4 5 5 none none 0 2].map Job.id).Nodup) ∧
    List.Pairwise (fun a b => ¬ a.overlaps_with b)
      [Job.mk 10 0 1 10 none none 0 0, Job.mk 20 2 3 20 none none 0 1,
        Job.mk 5 4 5 5 none none 0 2] ∧
    ∃ m, get_max_size [Job.mk 10 0 1 10 none none 0 0,
        Job.mk 20 2 3 20 none none 0 1, Job.mk 5 4 5 5 none none 0 2] = some m ∧
      idealloc (fun _ _ => ([], 0)) [Job.mk 10 0 1 10 none none 0 0,
          Job.mk 20 2 3 20 none none 0 1, Job.mk 5 4 5 5 none none 0 2] 0
        = ([Job.mk 10 0 1 10 none none 0 0, Job.mk 20 2 3 20 none none 0 1,
            Job.mk 5 4 5 5 none none 0 2].map
            (fun j => (j.id, get_corrected_offset j 0 0)), m) :=
  ⟨List.cons_ne_nil _ _, by decide, by decide, by decide,
    C7_no_overlap_branch [Job.mk 10 0 1 10 none none 0 0,
        Job.mk 20 2 3 20 none none 0 1, Job.mk 5 4 5 5 none none 0 2]
      (fun _ _ => ([], 0)) 0 (List.cons_ne_nil _ _) (by decide) (by decide)
      (by decide)⟩

/-! ## Claim C8: gap finding on an IGC row (`jobset.rs::gap_finder`) -/

/-- The event loop of `gap_finder`: `gap_start` tracks the pending gap's
start; a Birth closes it (recording both endpoints when non-degenerate), a
Death opens one at its time. -/
def gap_finder_loop : List Event → Option Nat → Finset Nat → Option Nat × Finset Nat
  | [], gap_start, res => (gap_start, res)
  | e :: rest, gap_start, res =>
    match e.evt_t with
    | .birth =>
      match gap_start with
      | some v =>
        if v < e.time then
          gap_finder_loop rest none (insert e.time (insert v res))
        else gap_finder_loop rest none res
      | none => gap_finder_loop rest none res
    | .death => gap_finder_loop rest (some e.time) res

/-- `jobset.rs::gap_finder`: `none` models the `unwrap` panic when the final
`gap_start` is absent (impossible for well-formed rows). -/
def gap_finder (row_jobs : List Job) (alpha omega : Nat) : Option (Finset Nat) :=
  match gap_finder_loop (get_events row_jobs) (some alpha) ∅ with
  | (some last_gap_start, res) =>
    some (if last_gap_start < omega then insert last_gap_start res else res)
  | (none, _) => none

/-- The interior gap endpoints of a row: a pair `{cur, birth}` for every
non-degenerate gap between the previous death (initially α) and the next
birth. -/
def interior_gaps : Nat → List Job → Finset Nat
  | _, [] => ∅
  | cur, j :: rest =>
    (if cur < j.birth then {cur, j.birth} else ∅) ∪ interior_gaps j.death rest

/-- The start of the trailing gap: the last death, or α for an empty row. -/
def final_gap_start : Nat → List Job → Nat
  | cur, [] => cur
  | _, j :: rest => final_gap_start j.death rest

/-- In a well-formed chain row, every job of the tail is born no earlier
than the head's death. -/
theorem chain_death_le_birth :
    ∀ (j : Job) (rest : List Job), (∀ x ∈ j :: rest, x.wf) →
      List.Chain' (fun a b => a.death ≤ b.birth) (j :: rest) →
      ∀ jr ∈ rest, j.death ≤ jr.birth := by
  intro j rest
  induction rest generalizing j with
  | nil => intro _ _ jr hjr; cases hjr
  | cons j2 rest2 ih =>
    intro hwf hch jr hjr
    have hrel : j.death ≤ j2.birth := (List.chain'_cons.mp hch).1
    rcases List.mem_cons.mp hjr with heq | hjr
    · rw [heq]; exact hrel
    · have hwf2 : ∀ x ∈ j2 :: rest2, x.wf :=
        fun x hx => hwf x (List.mem_cons_of_mem j hx)
      have h2 := ih j2 hwf2 (List.chain'_cons.mp hch).2 jr hjr
      have hwfj2 : j2.wf := hwf2 j2 (List.mem_cons_self _ _)
      unfold Job.wf at hwfj2
      omega

/-- The raw event stream of a well-formed chain row is already sorted. -/
theorem chain_events_sorted :
    ∀ (js : List Job), (∀ x ∈ js, x.wf) →
      List.Chain' (fun a b => a.death ≤ b.birth) js →
      List.Sorted eventLE (js.flatMap job_events) := by
  intro js
  induction js with
  | nil => intro _ _; simp [List.Sorted]
  | cons j rest ih =>
    intro hwf hch
    have hwfj : j.wf := hwf j (List.mem_cons_self _ _)
    have hwfr : ∀ x ∈ rest, x.wf := fun x hx => hwf x (List.mem_cons_of_mem j hx)
    have htail := ih hwfr hch.tail
    have hbound : ∀ jr ∈ rest, j.death ≤ jr.birth :=
      chain_death_le_birth j rest hwf hch
    have hstep : (j :: rest).flatMap job_events
        = ⟨j, EventKind.birth, j.birth⟩ :: ⟨j, EventKind.death, j.death⟩ ::
          rest.flatMap job_events := rfl
    rw [hstep]
    unfold Job.wf at hwfj
    refine List.Pairwise.cons ?_ (List.Pairwise.cons ?_ htail)
    · intro e he
      rcases List.mem_cons.mp he with heq | he
      · rw [heq]
        unfold eventLE event_key
        simp only [kind_rank]
        omega
      · rw [List.mem_flatMap] at he
        obtain ⟨jr, hjr, hje⟩ := he
        have hb := hbound jr hjr
        have hwfjr : jr.wf := hwfr jr hjr
        unfold Job.wf at hwfjr
        unfold job_events at hje
        rcases List.mem_cons.mp hje with heq | hje
        · rw [heq]
          unfold eventLE event_key
          simp only [kind_rank]
          omega
        · rw [List.mem_singleton.mp hje]
          unfold eventLE event_key
          simp only [kind_rank]
          omega
    · intro e he
      rw [List.mem_flatMap] at he
      obtain ⟨jr, hjr, hje⟩ := he
      have hb := hbound jr hjr
      have hwfjr : jr.wf := hwfr jr hjr
      unfold Job.wf at hwfjr
      unfold job_events at hje
      rcases List.mem_cons.mp hje with heq | hje
      · rw [heq]
        unfold eventLE event_key
        simp only [kind_rank]
        omega
      · rw [List.mem_singleton.mp hje]
        unfold eventLE event_key
        simp only [kind_rank]
        omega

/-- Behaviour of the gap loop on the raw alternating stream of a row. -/
theorem gap_finder_loop_flat (_omega : Nat) :
    ∀ (js : List Job) (cur : Nat) (res : Finset Nat),
    gap_finder_loop (js.flatMap job_events) (some cur) res
      = (some (final_gap_start cur js), res ∪ interior_gaps cur js) := by
  intro js
  induction js with
  | nil =>
    intro cur res
    simp [gap_finder_loop, final_gap_start, interior_gaps]
  | cons j rest ih =>
    intro cur res
    have hstep : (j :: rest).flatMap job_events
        = ⟨j, EventKind.birth, j.birth⟩ :: ⟨j, EventKind.death, j.death⟩ ::
          rest.flatMap job_events := rfl
    rw [hstep]
    have hfin : final_gap_start cur (j :: rest) = final_gap_start j.death rest := rfl
    have hint : interior_gaps cur (j :: rest)
        = (if cur < j.birth then {cur, j.birth} else ∅) ∪ interior_gaps j.death rest :=
      rfl
    rw [hfin, hint]
    by_cases h : cur < j.birth
    · have hloop : gap_finder_loop
          (⟨j, EventKind.birth, j.birth⟩ :: ⟨j, EventKind.death, j.death⟩ ::
            rest.flatMap job_events) (some cur) res
          = gap_finder_loop (rest.flatMap job_events) (some j.death)
              (insert j.birth (insert cur res)) := by
        simp [gap_finder_loop, h]
      rw [hloop, ih j.death (insert j.birth (insert cur res))]
      rw [if_pos h]
      refine Prod.ext rfl ?_
      ext x
      simp only [Finset.mem_union, Finset.mem_insert, Finset.mem_singleton]
      tauto
    · have hloop : gap_finder_loop
          (⟨j, EventKind.birth, j.birth⟩ :: ⟨j, EventKind.death, j.death⟩ ::
            rest.flatMap job_events) (some cur) res
          = gap_finder_loop (rest.flatMap job_events) (some j.death) res := by
        simp [gap_finder_loop, h]
      rw [hloop, ih j.death res]
      rw [if_neg h]
      refine Prod.ext rfl ?_
      ext x
      simp only [Finset.mem_union, Finset.not_mem_empty]
      tauto

/-- C8 (amended): on a well-formed chain row (as every IGC row is),
`gap_finder` succeeds and returns exactly: both endpoints of every maximal
interior gap, α paired with the first birth when the row starts after α, and
the *start* of the trailing gap (the last death, or α for an empty row) when
it lies before ω — but never the end ω of the trailing gap. -/
theorem C8_gap_finder_chain (js : List Job) (alpha omega : Nat)
    (hwf : ∀ x ∈ js, x.wf)
    (hch : List.Chain' (fun a b => a.death ≤ b.birth) js) :
    gap_finder js alpha omega
      = some (if final_gap_start alpha js < omega then
          insert (final_gap_start alpha js) (interior_gaps alpha js)
        else interior_gaps alpha js) := by
  unfold gap_finder
  have hev : get_events js = js.flatMap job_events :=
    List.Sorted.insertionSort_eq (chain_events_sorted js hwf hch)
  rw [hev, gap_finder_loop_flat omega js alpha ∅]
  simp only [Finset.empty_union]

/-- The concrete row `[(birth 1, death 2)]` inside bounding interval (0,3):
the trailing maximal gap is (2,3), yet ω = 3 is *not* inserted — `gap_finder`
emits only {0, 1, 2}.  This refutes the claim that the end endpoint of every
maximal gap (ω included) is in the returned set. -/
theorem C8_counterexample :
    (gap_finder [Job.mk 1 1 2 1 none none 0 0] 0 3).isSome ∧
    (0 ∈ (gap_finder [Job.mk 1 1 2 1 none none 0 0] 0 3).getD ∅) ∧
    (1 ∈ (gap_finder [Job.mk 1 1 2 1 none none 0 0] 0 3).getD ∅) ∧
    (2 ∈ (gap_finder [Job.mk 1 1 2 1 none none 0 0] 0 3).getD ∅) ∧
    (3 ∉ (gap_finder [Job.mk 1 1 2 1 none none 0 0] 0 3).getD ∅) ∧
    (Job.mk 1 1 2 1 none none 0 0).death = 2 ∧ (2 : Nat) < 3 := by
  refine ⟨by decide, by decide, by decide, by decide, by decide, rfl, by decide⟩

theorem C8_gap_finder_chain_witness :
    (∀ x ∈ [Job.mk 1 1 2 1 none none 0 0, Job.mk 1 4 5 1 none none 0 1], x.wf) ∧
    List.Chain' (fun a b => a.death ≤ b.birth)
      [Job.mk 1 1 2 1 none none 0 0, Job.mk 1 4 5 1 none none 0 1] ∧
    gap_finder [Job.mk 1 1 2 1 none none 0 0, Job.mk 1 4 5 1 none none 0 1] 0 6
      = some (if final_gap_start 0
            [Job.mk 1 1 2 1 none none 0 0, Job.mk 1 4 5 1 none none 0 1] < 6 then
          insert (final_gap_start 0
            [Job.mk 1 1 2 1 none none 0 0, Job.mk 1 4 5 1 none none 0 1])
            (interior_gaps 0
              [Job.mk 1 1 2 1 none none 0 0, Job.mk 1 4 5 1 none none 0 1])
        else interior_gaps 0
          [Job.mk 1 1 2 1 none none 0 0, Job.mk 1 4 5 1 none none 0 1]) :=
  ⟨by decide,
    List.chain'_cons.mpr ⟨by decide, List.chain'_singleton _⟩,
    C8_gap_finder_chain [Job.mk 1 1 2 1 none none 0 0, Job.mk 1 4 5 1 none none 0 1]
      0 6 (by decide)
      (List.chain'_cons.mpr ⟨by decide, List.chain'_singleton _⟩)⟩

/-! ## Claim C9: Lemma 1 strip carving (`boxing.rs::lemma_1`)

`IndexMap` is modelled as an insertion-ordered association list;
`IndexMap::pop` removes the *last* entry, `shift_remove` deletes by key
preserving order.  The `BinaryHeap` strips are modelled as lists sorted by
the heap's pop order (largest death first for vertical strips, smallest
birth first for horizontal ones); `lemma_1`'s float-derived counts
`outer_num = h·⌈1/ε²⌉` and `inner_num = h·⌈1/ε⌉` are taken as parameters. -/

/-- `IndexMap::pop`: removes and returns the last entry. -/
def imap_pop : List (Nat × Job) → Option ((Nat × Job) × List (Nat × Job))
  | [] => none
  | [x] => some (x, [])
  | x :: y :: rest =>
    match imap_pop (y :: rest) with
    | some (z, rest') => some (z, x :: rest')
    | none => none

/-- `IndexMap::shift_remove`: deletes the entry with the given key,
preserving the order of the rest. -/
def shift_remove (i : Nat) (m : List (Nat × Job)) : List (Nat × Job) :=
  m.filter (fun p => !(p.1 == i))

/-- `helpe.rs::strip_cuttin`: pops up to `to_take` jobs from `source`,
mirroring every removal in `mirror`; returns the cut jobs in pop order plus
the two shrunken maps. -/
def strip_cuttin :
    Nat → List (Nat × Job) → List (Nat × Job) →
      List Job × List (Nat × Job) × List (Nat × Job)
  | 0, source, mirror => ([], source, mirror)
  | n + 1, source, mirror =>
    match imap_pop source with
    | none => ([], source, mirror)
    | some ((i, j), source') =>
      let mirror' := shift_remove i mirror
      let r := strip_cuttin n source' mirror'
      (j :: r.1, r.2)

/-- The inner-strip loop of `lemma_1`: alternately cut vertical and
horizontal strips of up to `inner_num` jobs until `total_jobs` jobs have
been cut (the fuel is an upper bound on the loop trips, used only to make
the recursion structural; the theorems supply enough of it). -/
def inner_strips_loop :
    Nat → Nat → Nat → Nat → List (Nat × Job) → List (Nat × Job) →
      List (List Job) × List (List Job)
  | 0, _, _, _, _, _ => ([], [])
  | fuel + 1, inner_jobs, total_jobs, inner_num, vs, hs =>
    if inner_jobs < total_jobs then
      let rv := strip_cuttin inner_num vs hs
      let inner1 := inner_jobs + rv.1.length
      if inner1 = total_jobs then ([rv.1], [])
      else
        let rh := strip_cuttin inner_num rv.2.2 rv.2.1
        let rec_res := inner_strips_loop fuel (inner1 + rh.1.length) total_jobs
          inner_num rh.2.2 rh.2.1
        (rv.1 :: rec_res.1, rh.1 :: rec_res.2)
    else ([], [])

/-- Splits a strip into chunks of `group_size` jobs (trailing remainder kept). -/
def chunked (group_size : Nat) : List Job → List (List Job)
  | [] => []
  | x :: rest =>
    (x :: List.take (group_size - 1) rest) ::
      chunked group_size (List.drop (group_size - 1) rest)
termination_by l => l.length
decreasing_by
  simp only [List.length_drop, List.length_cons]
  omega

def box_birth (contents : List Job) : Nat :=
  contents.foldl (fun b j => min b j.birth) USIZE_MAX

def box_death (contents : List Job) : Nat :=
  contents.foldl (fun d j => max d j.death) 0

def box_originals (contents : List Job) : Nat :=
  contents.foldl (fun o j => o + (if j.is_original then 1 else j.originals_boxed)) 0

/-- `Job::new_box` (the globally unique descending id counter is ambient
mutable state; none of the claims depends on box ids, so 0 is used). -/
def new_box (contents : List Job) (height : Nat) : Job :=
  Job.mk height (box_birth contents) (box_death contents) height none
    (some contents) (box_originals contents) 0

/-- Pop order of a vertical strip's heap: largest death first. -/
def vert_pop_order (a b : Job) : Prop := b.death ≤ a.death

instance : DecidableRel vert_pop_order := fun a b =>
  inferInstanceAs (Decidable (b.death ≤ a.death))

/-- Pop order of a horizontal strip's heap: smallest birth first. -/
def hor_pop_order (a b : Job) : Prop := a.birth ≤ b.birth

instance : DecidableRel hor_pop_order := fun a b =>
  inferInstanceAs (Decidable (a.birth ≤ b.birth))

/-- `helpe.rs::strip_box_core`: drain one family of strips in heap order,
boxing every `group_size` consecutive jobs (trailing remainder on its own). -/
def strip_box_core (ord : Job → Job → Prop) [DecidableRel ord]
    (strips : List (List Job)) (group_size box_size : Nat) : List Job :=
  strips.flatMap (fun strip =>
    (chunked group_size (List.insertionSort ord strip)).map
      (fun g => new_box g box_size))

/-- `helpe.rs::strip_boxin`. -/
def strip_boxin (verticals horizontals : List (List Job))
    (group_size box_size : Nat) : List Job :=
  strip_box_core vert_pop_order verticals group_size box_size ++
    strip_box_core hor_pop_order horizontals group_size box_size

/-- The sort key of `lemma_1`'s `hor_source`: ascending death. -/
def death_le (a b : Nat × Job) : Prop := a.2.death ≤ b.2.death

instance : DecidableRel death_le := fun a b =>
  inferInstanceAs (Decidable (a.2.death ≤ b.2.death))

instance : IsTotal (Nat × Job) death_le := ⟨fun a b => Nat.le_total a.2.death b.2.death⟩

instance : IsTrans (Nat × Job) death_le := ⟨fun _ _ _ h1 h2 => Nat.le_trans h1 h2⟩

/-- `lemma_1`'s `hor_source`: the input keyed by id, sorted so that the
largest deaths go to the end (they will be popped first). -/
def hor_source (input : List Job) : List (Nat × Job) :=
  List.insertionSort death_le (input.map (fun j => (j.id, j)))

/-- `lemma_1`'s `vert_source`: the input keyed by id, reversed (the head of
the input will be popped first). -/
def vert_source (input : List Job) : List (Nat × Job) :=
  (input.map (fun j => (j.id, j))).reverse

/-- `boxing.rs::lemma_1`. -/
def lemma_1 (input : List Job) (h h_real outer_num inner_num : Nat) :
    Option (List Job) × List Job :=
  let total_jobs := input.length
  if total_jobs > 2 * outer_num then
    let rv := strip_cuttin outer_num (vert_source input) (hor_source input)
    let rh := strip_cuttin outer_num rv.2.2 rv.2.1
    let strips := inner_strips_loop total_jobs 0 (total_jobs - 2 * outer_num)
      inner_num rh.2.2 rh.2.1
    (some (strip_boxin strips.1 strips.2 h h_real), rv.1 ++ rh.1)
  else (none, input)

/-- Extracting the contents of a box (empty for an original job). -/
def box_contents (j : Job) : List Job := (Job.contents j).getD []

theorem imap_pop_append (m : List (Nat × Job)) (x : Nat × Job) :
    imap_pop (m ++ [x]) = some (x, m) := by
  induction m with
  | nil => rfl
  | cons a m' ih =>
    cases m' with
    | nil => rfl
    | cons b m'' =>
      have ih' : imap_pop (b :: (m'' ++ [x])) = some (x, b :: m'') := ih
      show (match imap_pop (b :: (m'' ++ [x])) with
        | some (z, rest') => some (z, a :: rest')
        | none => none) = some (x, a :: b :: m'')
      rw [ih']

theorem imap_pop_eq_none {m : List (Nat × Job)} :
    imap_pop m = none ↔ m = [] := by
  constructor
  · intro h
    rcases List.eq_nil_or_concat m with rfl | ⟨pre, x, hx⟩
    · rfl
    · rw [List.concat_eq_append] at hx
      rw [hx, imap_pop_append] at h
      cases h
  · intro h; rw [h]; rfl

theorem imap_pop_eq_some {m m' : List (Nat × Job)} {x : Nat × Job}
    (h : imap_pop m = some (x, m')) : m = m' ++ [x] := by
  rcases List.eq_nil_or_concat m with rfl | ⟨pre, y, hy⟩
  · cases h
  · rw [List.concat_eq_append] at hy
    rw [hy, imap_pop_append] at h
    injection h with h'
    injection h' with h1 h2
    rw [hy, h1, h2]

/-- Keys name the job they carry (true for both index maps of `lemma_1`). -/
def key_coherent (m : List (Nat × Job)) : Prop := ∀ p ∈ m, p.1 = p.2.id

/-- The two index maps of `lemma_1` stay mirror images: same entries, unique
coherent keys. -/
def MirrorInv (vs hs : List (Nat × Job)) : Prop :=
  vs.Perm hs ∧ (vs.map Prod.fst).Nodup ∧ key_coherent vs

theorem MirrorInv.symm {vs hs : List (Nat × Job)} (h : MirrorInv vs hs) :
    MirrorInv hs vs := by
  obtain ⟨hp, hn, hc⟩ := h
  refine ⟨hp.symm, ?_, ?_⟩
  · exact hn.perm (hp.map Prod.fst)
  · intro p hp2
    exact hc p (hp.mem_iff.mpr hp2)

/-- Removing a present key (unique among the keys) is, up to permutation,
removing that entry. -/
theorem shift_remove_perm {hs : List (Nat × Job)} {x : Nat × Job}
    (hmem : x ∈ hs) (hnod : (hs.map Prod.fst).Nodup) :
    hs.Perm (x :: shift_remove x.1 hs) := by
  induction hs with
  | nil => cases hmem
  | cons p rest ih =>
    have hnod_rest : (rest.map Prod.fst).Nodup := (List.nodup_cons.mp hnod).2
    have hp_not : p.1 ∉ rest.map Prod.fst := (List.nodup_cons.mp hnod).1
    by_cases hk : p.1 = x.1
    · have hxp : x = p := by
        rcases List.mem_cons.mp hmem with h | h
        · exact h
        · exfalso
          apply hp_not
          rw [hk]
          exact List.mem_map.mpr ⟨x, h, rfl⟩
      have hsr : shift_remove x.1 (p :: rest) = rest := by
        unfold shift_remove
        rw [List.filter_cons]
        have h1 : (!(p.1 == x.1)) = false := by simp [hk]
        rw [h1]
        have h2 : rest.filter (fun p => !(p.1 == x.1)) = rest := by
          apply List.filter_eq_self.mpr
          intro q hq
          simp only [Bool.not_eq_eq_eq_not, Bool.not_true, beq_eq_false_iff_ne, ne_eq]
          intro hqk
          apply hp_not
          rw [hk, ← hqk]
          exact List.mem_map.mpr ⟨q, hq, rfl⟩
        simp [h2]
      rw [hsr, hxp]
    · have hxrest : x ∈ rest := by
        rcases List.mem_cons.mp hmem with h | h
        · exact absurd (by rw [h]) hk
        · exact h
      have hsr : shift_remove x.1 (p :: rest) = p :: shift_remove x.1 rest := by
        unfold shift_remove
        rw [List.filter_cons]
        have h1 : (!(p.1 == x.1)) = true := by simp [hk]
        rw [h1]
        simp
      rw [hsr]
      exact ((ih hxrest hnod_rest).cons p).trans
        (List.Perm.swap x p (shift_remove x.1 rest))

/-- Accounting of one strip cut: the cut jobs plus the remaining source jobs
are the original source jobs; the mirror invariant is preserved; the sizes
are as expected. -/
theorem strip_cuttin_spec :
    ∀ (n : Nat) (vs hs : List (Nat × Job)), MirrorInv vs hs →
    (vs.map Prod.snd).Perm
        ((strip_cuttin n vs hs).1 ++ (strip_cuttin n vs hs).2.1.map Prod.snd) ∧
    MirrorInv (strip_cuttin n vs hs).2.1 (strip_cuttin n vs hs).2.2 ∧
    (strip_cuttin n vs hs).2.1.length = vs.length - n ∧
    (strip_cuttin n vs hs).1.length = min n vs.length := by
  intro n
  induction n with
  | zero =>
    intro vs hs hinv
    exact ⟨List.Perm.refl _, hinv, rfl, by simp [strip_cuttin]⟩
  | succ n ih =>
    intro vs hs hinv
    obtain ⟨hperm, hnod, hcoh⟩ := hinv
    cases hpop : imap_pop vs with
    | none =>
      have hvs : vs = [] := imap_pop_eq_none.mp hpop
      subst hvs
      have hstep : strip_cuttin (n + 1) ([] : List (Nat × Job)) hs = ([], [], hs) := by
        simp [strip_cuttin, imap_pop]
      rw [hstep]
      exact ⟨List.Perm.refl _, ⟨hperm, hnod, hcoh⟩, by simp, by simp⟩
    | some r =>
      rcases r with ⟨⟨i, j⟩, vs'⟩
      have hvs : vs = vs' ++ [(i, j)] := imap_pop_eq_some hpop
      have hstep : strip_cuttin (n + 1) vs hs
          = (j :: (strip_cuttin n vs' (shift_remove i hs)).1,
             (strip_cuttin n vs' (shift_remove i hs)).2) := by
        simp [strip_cuttin, hpop]
      have hmem_vs : ((i, j) : Nat × Job) ∈ vs := by
        rw [hvs]; simp
      have hmem_hs : ((i, j) : Nat × Job) ∈ hs := hperm.mem_iff.mp hmem_vs
      have hnod_hs : (hs.map Prod.fst).Nodup := hnod.perm (hperm.map Prod.fst)
      have hsrp : hs.Perm ((i, j) :: shift_remove i hs) :=
        shift_remove_perm hmem_hs hnod_hs
      have hvs_perm : vs.Perm ((i, j) :: vs') := by
        rw [hvs]
        exact List.perm_append_comm
      have hinv' : MirrorInv vs' (shift_remove i hs) := by
        refine ⟨?_, ?_, ?_⟩
        · have : ((i, j) :: vs').Perm ((i, j) :: shift_remove i hs) :=
            (hvs_perm.symm.trans hperm).trans hsrp
          exact this.cons_inv
        · have : (vs.map Prod.fst) = (vs'.map Prod.fst) ++ [i] := by
            rw [hvs]; simp
          rw [this] at hnod
          exact hnod.of_append_left
        · intro p hp
          exact hcoh p (by rw [hvs]; exact List.mem_append.mpr (Or.inl hp))
      obtain ⟨ihp, ihinv, ihlen, ihcut⟩ := ih vs' (shift_remove i hs) hinv'
      rw [hstep]
      refine ⟨?_, ihinv, ?_, ?_⟩
      · have hchain : (vs.map Prod.snd).Perm (j :: (vs'.map Prod.snd)) := by
          rw [hvs]
          simp only [List.map_append, List.map_cons, List.map_nil,
            List.singleton_append]
          exact (List.perm_append_comm).trans (List.Perm.refl _)
        exact hchain.trans (ihp.cons j)
      · show (strip_cuttin n vs' (shift_remove i hs)).2.1.length = vs.length - (n + 1)
        rw [ihlen, hvs]
        simp only [List.length_append, List.length_cons, List.length_nil]
        omega
      · show (strip_cuttin n vs' (shift_remove i hs)).1.length + 1 = min (n + 1) vs.length
        rw [ihcut, hvs]
        simp only [List.length_append, List.length_cons, List.length_nil]
        omega

/-- The source map left by a cut is the prefix that survives popping `n`
entries off the end. -/
theorem strip_cuttin_remaining :
    ∀ (n : Nat) (s m : List (Nat × Job)),
      (strip_cuttin n s m).2.1 = s.take (s.length - n) := by
  intro n
  induction n with
  | zero => intro s m; simp [strip_cuttin]
  | succ n ih =>
    intro s m
    cases hpop : imap_pop s with
    | none =>
      have hs : s = [] := imap_pop_eq_none.mp hpop
      subst hs
      simp [strip_cuttin, imap_pop]
    | some r =>
      rcases r with ⟨⟨i, j⟩, s'⟩
      have hs : s = s' ++ [(i, j)] := imap_pop_eq_some hpop
      have hstep : (strip_cuttin (n + 1) s m).2.1
          = (strip_cuttin n s' (shift_remove i m)).2.1 := by
        simp [strip_cuttin, hpop]
      rw [hstep, ih s' (shift_remove i m), hs]
      have hlen : (s' ++ [((i : Nat), j)]).length - (n + 1) = s'.length - n := by
        simp
      rw [hlen, List.take_append_of_le_length (Nat.sub_le _ _)]

/-- The jobs a cut pops are the reversed suffix of the source. -/
theorem strip_cuttin_cut_eq :
    ∀ (n : Nat) (s m : List (Nat × Job)),
      (strip_cuttin n s m).1 = ((s.drop (s.length - n)).reverse).map Prod.snd := by
  intro n
  induction n with
  | zero => intro s m; simp [strip_cuttin]
  | succ n ih =>
    intro s m
    cases hpop : imap_pop s with
    | none =>
      have hs : s = [] := imap_pop_eq_none.mp hpop
      subst hs
      simp [strip_cuttin, imap_pop]
    | some r =>
      rcases r with ⟨⟨i, j⟩, s'⟩
      have hs : s = s' ++ [(i, j)] := imap_pop_eq_some hpop
      have hstep : (strip_cuttin (n + 1) s m).1
          = j :: (strip_cuttin n s' (shift_remove i m)).1 := by
        simp [strip_cuttin, hpop]
      rw [hstep, ih s' (shift_remove i m), hs]
      have hlen : (s' ++ [((i : Nat), j)]).length - (n + 1) = s'.length - n := by
        simp
      rw [hlen, List.drop_append_of_le_length (Nat.sub_le _ _)]
      simp

/-- The mirror map left by a cut is obtained by deletions only. -/
theorem strip_cuttin_mirror_sublist :
    ∀ (n : Nat) (s m : List (Nat × Job)),
      (strip_cuttin n s m).2.2.Sublist m := by
  intro n
  induction n with
  | zero => intro s m; simp [strip_cuttin]
  | succ n ih =>
    intro s m
    cases hpop : imap_pop s with
    | none =>
      have hs : s = [] := imap_pop_eq_none.mp hpop
      subst hs
      simp [strip_cuttin, imap_pop]
    | some r =>
      rcases r with ⟨⟨i, j⟩, s'⟩
      have hstep : (strip_cuttin (n + 1) s m).2.2
          = (strip_cuttin n s' (shift_remove i m)).2.2 := by
        simp [strip_cuttin, hpop]
      rw [hstep]
      exact (ih s' (shift_remove i m)).trans (List.filter_sublist m)

theorem chunked_flatten_aux (g : Nat) :
    ∀ (n : Nat) (l : List Job), l.length ≤ n → (chunked g l).flatten = l := by
  intro n
  induction n with
  | zero =>
    intro l hl
    have : l = [] := List.length_eq_zero.mp (Nat.le_zero.mp hl)
    subst this
    simp [chunked]
  | succ n ih =>
    intro l hl
    cases l with
    | nil => simp [chunked]
    | cons x rest =>
      have hrest : rest.length ≤ n := by
        simp only [List.length_cons] at hl
        omega
      rw [chunked]
      simp only [List.flatten_cons]
      rw [ih (rest.drop (g - 1)) (by simp only [List.length_drop]; omega)]
      simp only [List.cons_append, List.take_append_drop]

/-- Chunking a strip loses and duplicates nothing. -/
theorem chunked_flatten (g : Nat) (l : List Job) : (chunked g l).flatten = l :=
  chunked_flatten_aux g l.length l le_rfl

/-- The jobs inside the boxes produced from one strip family are the
strip jobs. -/
theorem strip_box_core_contents (ord : Job → Job → Prop) [DecidableRel ord]
    (strips : List (List Job)) (g b : Nat) :
    ((strip_box_core ord strips g b).flatMap box_contents).Perm strips.flatten := by
  induction strips with
  | nil => simp [strip_box_core]
  | cons s rest ih =>
    simp only [strip_box_core, List.flatMap_cons, List.flatten_cons] at *
    rw [List.flatMap_append]
    refine List.Perm.append ?_ ih
    have hmap : ((chunked g (List.insertionSort ord s)).map
        (fun gr => new_box gr b)).flatMap box_contents
        = (chunked g (List.insertionSort ord s)).flatten := by
      rw [List.flatMap_map]
      have hfun : (fun a => box_contents (new_box a b)) = (fun a : List Job => a) := by
        funext gr
        simp [box_contents, new_box, Job.contents]
      rw [hfun]
      exact List.flatMap_id _
    rw [hmap, chunked_flatten]
    exact List.perm_insertionSort ord s

/-- The inner loop of `lemma_1` carves every remaining job into some strip:
with mirrored maps and a consistent job count, the strips it returns hold
exactly the source's jobs. -/
theorem inner_strips_loop_exhaust :
    ∀ (fuel inner_jobs total inner_num : Nat) (vs hs : List (Nat × Job)),
      MirrorInv vs hs → inner_jobs + vs.length = total → vs.length ≤ fuel →
      1 ≤ inner_num →
      (vs.map Prod.snd).Perm
        ((inner_strips_loop fuel inner_jobs total inner_num vs hs).1.flatten ++
          (inner_strips_loop fuel inner_jobs total inner_num vs hs).2.flatten) := by
  intro fuel
  induction fuel with
  | zero =>
    intro inner_jobs total inner_num vs hs hinv hcount hfuel hnum
    have hvs : vs = [] := List.length_eq_zero.mp (Nat.le_zero.mp hfuel)
    subst hvs
    simp [inner_strips_loop]
  | succ fuel ih =>
    intro inner_jobs total inner_num vs hs hinv hcount hfuel hnum
    by_cases hlt : inner_jobs < total
    · obtain ⟨rvp, rvinv, rvlen, rvcut⟩ := strip_cuttin_spec inner_num vs hs hinv
      by_cases hdone : inner_jobs + (strip_cuttin inner_num vs hs).1.length = total
      · have hres : inner_strips_loop (fuel + 1) inner_jobs total inner_num vs hs
            = ([(strip_cuttin inner_num vs hs).1], []) := by
          simp only [inner_strips_loop]
          rw [if_pos hlt, if_pos hdone]
        rw [hres]
        have hrem : (strip_cuttin inner_num vs hs).2.1 = [] := by
          refine List.length_eq_zero.mp ?_
          omega
        simpa [hrem] using rvp
      · obtain ⟨rhp, rhinv, rhlen, rhcut⟩ := strip_cuttin_spec inner_num
          (strip_cuttin inner_num vs hs).2.2 (strip_cuttin inner_num vs hs).2.1
          rvinv.symm
        have hres : inner_strips_loop (fuel + 1) inner_jobs total inner_num vs hs
            = ((strip_cuttin inner_num vs hs).1 ::
                (inner_strips_loop fuel
                  (inner_jobs + (strip_cuttin inner_num vs hs).1.length +
                    (strip_cuttin inner_num
                      (strip_cuttin inner_num vs hs).2.2
                      (strip_cuttin inner_num vs hs).2.1).1.length)
                  total inner_num
                  (strip_cuttin inner_num
                    (strip_cuttin inner_num vs hs).2.2
                    (strip_cuttin inner_num vs hs).2.1).2.2
                  (strip_cuttin inner_num
                    (strip_cuttin inner_num vs hs).2.2
                    (strip_cuttin inner_num vs hs).2.1).2.1).1,
               (strip_cuttin inner_num
                  (strip_cuttin inner_num vs hs).2.2
                  (strip_cuttin inner_num vs hs).2.1).1 ::
                (inner_strips_loop fuel
                  (inner_jobs + (strip_cuttin inner_num vs hs).1.length +
                    (strip_cuttin inner_num
                      (strip_cuttin inner_num vs hs).2.2
                      (strip_cuttin inner_num vs hs).2.1).1.length)
                  total inner_num
                  (strip_cuttin inner_num
                    (strip_cuttin inner_num vs hs).2.2
                    (strip_cuttin inner_num vs hs).2.1).2.2
                  (strip_cuttin inner_num
                    (strip_cuttin inner_num vs hs).2.2
                    (strip_cuttin inner_num vs hs).2.1).2.1).2) := by
          simp only [inner_strips_loop]
          rw [if_pos hlt, if_neg hdone]
        have hlen21 : (strip_cuttin inner_num vs hs).2.1.length
            = (strip_cuttin inner_num vs hs).2.2.length :=
          rvinv.1.length_eq
        have hlen21b : (strip_cuttin inner_num
            (strip_cuttin inner_num vs hs).2.2
            (strip_cuttin inner_num vs hs).2.1).2.1.length
            = (strip_cuttin inner_num
                (strip_cuttin inner_num vs hs).2.2
                (strip_cuttin inner_num vs hs).2.1).2.2.length :=
          rhinv.1.length_eq
        have hcount' : inner_jobs + (strip_cuttin inner_num vs hs).1.length +
            (strip_cuttin inner_num
              (strip_cuttin inner_num vs hs).2.2
              (strip_cuttin inner_num vs hs).2.1).1.length +
            (strip_cuttin inner_num
              (strip_cuttin inner_num vs hs).2.2
              (strip_cuttin inner_num vs hs).2.1).2.2.length = total := by
          omega
        have hfuel' : (strip_cuttin inner_num
            (strip_cuttin inner_num vs hs).2.2
            (strip_cuttin inner_num vs hs).2.1).2.2.length ≤ fuel := by
          omega
        have hrec := ih
          (inner_jobs + (strip_cuttin inner_num vs hs).1.length +
            (strip_cuttin inner_num
              (strip_cuttin inner_num vs hs).2.2
              (strip_cuttin inner_num vs hs).2.1).1.length)
          total inner_num
          (strip_cuttin inner_num
            (strip_cuttin inner_num vs hs).2.2
            (strip_cuttin inner_num vs hs).2.1).2.2
          (strip_cuttin inner_num
            (strip_cuttin inner_num vs hs).2.2
            (strip_cuttin inner_num vs hs).2.1).2.1
          rhinv.symm hcount' hfuel' hnum
        rw [hres]
        simp only [List.flatten_cons]
        have hfull : (vs.map Prod.snd).Perm
            ((strip_cuttin inner_num vs hs).1 ++
              ((strip_cuttin inner_num
                  (strip_cuttin inner_num vs hs).2.2
                  (strip_cuttin inner_num vs hs).2.1).1 ++
                ((inner_strips_loop fuel
                    (inner_jobs + (strip_cuttin inner_num vs hs).1.length +
                      (strip_cuttin inner_num
                        (strip_cuttin inner_num vs hs).2.2
                        (strip_cuttin inner_num vs hs).2.1).1.length)
                    total inner_num
                    (strip_cuttin inner_num
                      (strip_cuttin inner_num vs hs).2.2
                      (strip_cuttin inner_num vs hs).2.1).2.2
                    (strip_cuttin inner_num
                      (strip_cuttin inner_num vs hs).2.2
                      (strip_cuttin inner_num vs hs).2.1).2.1).1.flatten ++
                  (inner_strips_loop fuel
                    (inner_jobs + (strip_cuttin inner_num vs hs).1.length +
                      (strip_cuttin inner_num
                        (strip_cuttin inner_num vs hs).2.2
                        (strip_cuttin inner_num vs hs).2.1).1.length)
                    total inner_num
                    (strip_cuttin inner_num
                      (strip_cuttin inner_num vs hs).2.2
                      (strip_cuttin inner_num vs hs).2.1).2.2
                    (strip_cuttin inner_num
                      (strip_cuttin inner_num vs hs).2.2
                      (strip_cuttin inner_num vs hs).2.1).2.1).2.flatten))) := by
          refine rvp.trans (List.Perm.append_left _ ?_)
          refine ((rvinv.1.map Prod.snd).trans rhp).trans
            (List.Perm.append_left _ ?_)
          exact (rhinv.1.map Prod.snd).trans hrec
        have hmid : ∀ (B C D : List Job), (B ++ (C ++ D)).Perm (C ++ (B ++ D)) := by
          intro B C D
          have hbc : ((B ++ C) ++ D).Perm ((C ++ B) ++ D) :=
            (List.perm_append_comm).append_right D
          simpa [List.append_assoc] using hbc
        simp only [List.append_assoc]
        exact hfull.trans (List.Perm.append_left _ (hmid _ _ _))
    · have hvs : vs = [] := by
        refine List.length_eq_zero.mp ?_
        omega
      subst hvs
      have hres : inner_strips_loop (fuel + 1) inner_jobs total inner_num [] hs
          = ([], []) := by
        simp only [inner_strips_loop]
        rw [if_neg hlt]
      rw [hres]
      simp

/-- Reversing, dropping all but the last `n` entries and reversing again
yields the first `n` entries. -/
theorem reverse_drop_reverse {α : Type} (l : List α) (n : Nat) :
    (l.reverse.drop (l.length - n)).reverse = l.take n := by
  have hlen : (l.drop n).reverse.length = l.length - n := by simp
  have hrev : l.reverse = (l.drop n).reverse ++ (l.take n).reverse := by
    conv_lhs => rw [← List.take_append_drop n l]
    rw [List.reverse_append]
  rw [hrev, ← hlen, List.drop_left, List.reverse_reverse]

/-- What `lemma_1` actually guarantees: the small case returns the input
untouched; otherwise the residue has `2·outer_num` jobs, its first half is
the *head* of the (birth-ordered) input, its second half dominates the
deaths of every boxed job, and boxes plus residue carry every input job
exactly once. -/
def lemma_1_spec (input : List Job) (h h_real outer_num inner_num : Nat) : Prop :=
  (∀ small : List Job, small.length ≤ 2 * outer_num →
      lemma_1 small h h_real outer_num inner_num = (none, small)) ∧
  (lemma_1 input h h_real outer_num inner_num).2.length = 2 * outer_num ∧
  (lemma_1 input h h_real outer_num inner_num).2.take outer_num
      = input.take outer_num ∧
  ∃ boxes : List Job,
    (lemma_1 input h h_real outer_num inner_num).1 = some boxes ∧
    (boxes.flatMap box_contents ++
        (lemma_1 input h h_real outer_num inner_num).2).Perm input ∧
    ∀ x ∈ (lemma_1 input h h_real outer_num inner_num).2.drop outer_num,
      ∀ y ∈ boxes.flatMap box_contents, y.death ≤ x.death

/-- C9 (amended): for inputs of at most `2·outer_num` jobs `lemma_1` returns
`(none, input)` unchanged; for larger inputs the residue consists of exactly
`2·outer_num` jobs, namely the *first* `outer_num` jobs of the input (the
earliest births when the input is birth-ordered, not the largest deaths)
followed by `outer_num` jobs whose deaths dominate the deaths of every job
that ends up inside a returned box (the largest remaining deaths, cut from
the death-sorted map); every input job lands exactly once in a box or in
the residue. -/
theorem C9_lemma_1_structure (input : List Job) (h h_real outer_num inner_num : Nat)
    (hlen : 2 * outer_num < input.length)
    (hids : (input.map Job.id).Nodup)
    (hinner : 1 ≤ inner_num) :
    lemma_1_spec input h h_real outer_num inner_num := by
  have hvertlen : (vert_source input).length = input.length := by
    simp [vert_source]
  have hMirror : MirrorInv (vert_source input) (hor_source input) := by
    refine ⟨?_, ?_, ?_⟩
    · exact (List.reverse_perm _).trans (List.perm_insertionSort _ _).symm
    · have hmapeq : (vert_source input).map Prod.fst = (input.map Job.id).reverse := by
        simp only [vert_source, List.map_reverse, List.map_map]
        congr 1
      rw [hmapeq]
      exact List.nodup_reverse.mpr hids
    · intro p hp
      rcases List.mem_map.mp (List.mem_reverse.mp hp) with ⟨j, _, hpe⟩
      rw [← hpe]
  have hl1 : lemma_1 input h h_real outer_num inner_num
      = (some (strip_boxin
          (inner_strips_loop input.length 0 (input.length - 2 * outer_num) inner_num
            (strip_cuttin outer_num
              (strip_cuttin outer_num (vert_source input) (hor_source input)).2.2
              (strip_cuttin outer_num (vert_source input) (hor_source input)).2.1).2.2
            (strip_cuttin outer_num
              (strip_cuttin outer_num (vert_source input) (hor_source input)).2.2
              (strip_cuttin outer_num (vert_source input) (hor_source input)).2.1).2.1).1
          (inner_strips_loop input.length 0 (input.length - 2 * outer_num) inner_num
            (strip_cuttin outer_num
              (strip_cuttin outer_num (vert_source input) (hor_source input)).2.2
              (strip_cuttin outer_num (vert_source input) (hor_source input)).2.1).2.2
            (strip_cuttin outer_num
              (strip_cuttin outer_num (vert_source input) (hor_source input)).2.2
              (strip_cuttin outer_num (vert_source input) (hor_source input)).2.1).2.1).2
          h h_real),
        (strip_cuttin outer_num (vert_source input) (hor_source input)).1 ++
          (strip_cuttin outer_num
            (strip_cuttin outer_num (vert_source input) (hor_source input)).2.2
            (strip_cuttin outer_num (vert_source input) (hor_source input)).2.1).1) := by
    simp only [lemma_1]
    rw [if_pos (by omega : input.length > 2 * outer_num)]
  set rv := strip_cuttin outer_num (vert_source input) (hor_source input) with hrv
  set rh := strip_cuttin outer_num rv.2.2 rv.2.1 with hrh
  set strips := inner_strips_loop input.length 0 (input.length - 2 * outer_num)
    inner_num rh.2.2 rh.2.1 with hstrips
  have hspec1 := strip_cuttin_spec outer_num (vert_source input) (hor_source input) hMirror
  rw [← hrv] at hspec1
  obtain ⟨rvp, rvinv, rvlen, rvcut⟩ := hspec1
  have hspec2 := strip_cuttin_spec outer_num rv.2.2 rv.2.1 rvinv.symm
  rw [← hrh] at hspec2
  obtain ⟨rhp, rhinv, rhlen, rhcut⟩ := hspec2
  have hrvcut_len : rv.1.length = outer_num := by
    rw [rvcut, hvertlen]
    omega
  have hrv21len : rv.2.1.length = input.length - outer_num := by
    rw [rvlen, hvertlen]
  have hrv22len : rv.2.2.length = input.length - outer_num := by
    rw [← rvinv.1.length_eq, hrv21len]
  have hrhcut_len : rh.1.length = outer_num := by
    rw [rhcut, hrv22len]
    omega
  have hrh21len : rh.2.1.length = input.length - 2 * outer_num := by
    rw [rhlen, hrv22len]
    omega
  have hrh22len : rh.2.2.length = input.length - 2 * outer_num := by
    rw [← rhinv.1.length_eq, hrh21len]
  have hcutA : rv.1 = input.take outer_num := by
    rw [hrv, strip_cuttin_cut_eq, hvertlen]
    simp only [vert_source]
    have hlm : input.length = (input.map (fun j => (j.id, j))).length := by simp
    rw [hlm, reverse_drop_reverse]
    rw [← List.map_take, List.map_map]
    have : (Prod.snd ∘ fun j => (j.id, j)) = fun j : Job => j := by
      funext j
      rfl
    rw [this, List.map_id']
  have htakeA : (rv.1 ++ rh.1).take outer_num = rv.1 := by
    conv_lhs => rw [← hrvcut_len]
    exact List.take_left _ _
  have hdropA : (rv.1 ++ rh.1).drop outer_num = rh.1 := by
    conv_lhs => rw [← hrvcut_len]
    exact List.drop_left _ _
  have hboxflat : ((strip_boxin strips.1 strips.2 h h_real).flatMap box_contents).Perm
      (strips.1.flatten ++ strips.2.flatten) := by
    simp only [strip_boxin]
    rw [List.flatMap_append]
    exact (strip_box_core_contents _ _ _ _).append (strip_box_core_contents _ _ _ _)
  have hinner_perm : (rh.2.2.map Prod.snd).Perm (strips.1.flatten ++ strips.2.flatten) := by
    rw [hstrips]
    exact inner_strips_loop_exhaust input.length 0 (input.length - 2 * outer_num)
      inner_num rh.2.2 rh.2.1 rhinv.symm (by omega) (by omega) hinner
  have hinput_vert : List.Perm input ((vert_source input).map Prod.snd) := by
    simp only [vert_source]
    rw [List.map_reverse, List.map_map]
    have : (Prod.snd ∘ fun j => (j.id, j)) = fun j : Job => j := by
      funext j
      rfl
    rw [this, List.map_id']
    exact (List.reverse_perm input).symm
  have hchain : List.Perm input
      (rv.1 ++ (rh.1 ++ (strips.1.flatten ++ strips.2.flatten))) :=
    hinput_vert.trans (rvp.trans (List.Perm.append_left _
      ((rvinv.1.map Prod.snd).trans (rhp.trans (List.Perm.append_left _
        ((rhinv.1.map Prod.snd).trans hinner_perm))))))
  unfold lemma_1_spec
  refine ⟨?_, ?_, ?_, ?_⟩
  · intro small hsmall
    simp only [lemma_1]
    rw [if_neg (by omega : ¬ small.length > 2 * outer_num)]
  · rw [hl1]
    show (rv.1 ++ rh.1).length = 2 * outer_num
    rw [List.length_append, hrvcut_len, hrhcut_len]
    omega
  · rw [hl1]
    show (rv.1 ++ rh.1).take outer_num = input.take outer_num
    rw [htakeA, hcutA]
  · refine ⟨strip_boxin strips.1 strips.2 h h_real, ?_, ?_, ?_⟩
    · rw [hl1]
    · rw [hl1]
      show ((strip_boxin strips.1 strips.2 h h_real).flatMap box_contents ++
          (rv.1 ++ rh.1)).Perm input
      have hfinal : ((rv.1 ++ rh.1) ++ (strips.1.flatten ++ strips.2.flatten)).Perm
          input := by
        rw [List.append_assoc]
        exact hchain.symm
      exact (hboxflat.append_right (rv.1 ++ rh.1)).trans
        (List.perm_append_comm.trans hfinal)
    · intro x hx y hy
      rw [hl1] at hx
      have hx' : x ∈ (rv.1 ++ rh.1).drop outer_num := hx
      rw [hdropA] at hx'
      have hy2 : y ∈ rh.2.2.map Prod.snd :=
        hinner_perm.mem_iff.mpr (hboxflat.mem_iff.mp hy)
      have hy1 : y ∈ rh.2.1.map Prod.snd :=
        ((rhinv.1.map Prod.snd).mem_iff).mpr hy2
      have hpair_hor : (hor_source input).Pairwise death_le :=
        List.sorted_insertionSort death_le _
      have hsub : rv.2.2.Sublist (hor_source input) := by
        rw [hrv]
        exact strip_cuttin_mirror_sublist _ _ _
      have hpair : rv.2.2.Pairwise death_le := hpair_hor.sublist hsub
      have hrem : rh.2.1 = rv.2.2.take (rv.2.2.length - outer_num) := by
        rw [hrh]
        exact strip_cuttin_remaining _ _ _
      have hcut : rh.1
          = ((rv.2.2.drop (rv.2.2.length - outer_num)).reverse).map Prod.snd := by
        rw [hrh]
        exact strip_cuttin_cut_eq _ _ _
      rw [hcut] at hx'
      rcases List.mem_map.mp hx' with ⟨p, hpmem, hpx⟩
      have hpdrop : p ∈ rv.2.2.drop (rv.2.2.length - outer_num) :=
        List.mem_reverse.mp hpmem
      rw [hrem] at hy1
      rcases List.mem_map.mp hy1 with ⟨q, hqtake, hqy⟩
      have hpair2 : (rv.2.2.take (rv.2.2.length - outer_num) ++
          rv.2.2.drop (rv.2.2.length - outer_num)).Pairwise death_le := by
        rw [List.take_append_drop]
        exact hpair
      have hdom := (List.pairwise_append.mp hpair2).2.2 q hqtake p hpdrop
      rw [← hqy, ← hpx]
      exact hdom

/-- A birth-ordered 3-job input: deaths 1, 5, 3 and births 0, 1, 2. -/
def demo_l1_input : List Job :=
  [Job.mk 1 0 1 1 none none 0 0,
   Job.mk 1 1 5 1 none none 0 1,
   Job.mk 1 2 3 1 none none 0 2]

/-- With `outer_num = 1` the residue of `lemma_1` holds the jobs with ids 0
and 1.  The claim's residue — the job with the largest death (id 1, death 5)
plus the job with the latest birth (id 2, birth 2) — would be ids 1 and 2;
instead the job with the *smallest* death and the *earliest* birth (id 0)
is in the residue while id 2 is boxed. -/
theorem C9_counterexample :
    (lemma_1 demo_l1_input 1 1 1 1).2.map Job.id = [0, 1] ∧
    demo_l1_input.map Job.death = [1, 5, 3] ∧
    demo_l1_input.map Job.birth = [0, 1, 2] := by
  refine ⟨?_, ?_, ?_⟩ <;> rfl

theorem C9_lemma_1_structure_witness :
    (2 * 1 < demo_l1_input.length ∧ (demo_l1_input.map Job.id).Nodup ∧ 1 ≤ 1) ∧
    lemma_1_spec demo_l1_input 1 1 1 1 :=
  ⟨by decide, C9_lemma_1_structure demo_l1_input 1 1 1 1 (by decide) (by decide)
    (by decide)⟩

/-! ## Interval graph coloring (`jobset.rs::interval_graph_coloring`)

The loop state carries the produced rows, the `BTreeSet` of free row
indices (a `Finset Nat`, popped at its minimum), the highest spawned row
and the id-to-row `cheatsheet`.  The two `unwrap`s of the source (popping
an empty free set, death of an unborn job) are modelled by `none`. -/

structure IGCState where
  res : List (List Job)
  free_rows : Finset Nat
  max_row : Nat
  sheet : List (Nat × Nat)

/-- `cheatsheet.remove(&id)`: drop the entry with the given id. -/
def sheet_remove (i : Nat) (m : List (Nat × Nat)) : List (Nat × Nat) :=
  m.filter (fun p => !(p.1 == i))

/-- `cheatsheet.insert(id, row)` (`HashMap` semantics: overwrite). -/
def sheet_insert (i r : Nat) (m : List (Nat × Nat)) : List (Nat × Nat) :=
  (i, r) :: sheet_remove i m

/-- The lookup half of `cheatsheet.remove(&id)`. -/
def sheet_lookup (i : Nat) : List (Nat × Nat) → Option Nat
  | [] => none
  | p :: rest => if p.1 = i then some p.2 else sheet_lookup i rest

/-- `res.get_mut(row)`: push onto the existing row, or (when `row` is one
past the end, which the source asserts) open a fresh row. -/
def place_in_row (res : List (List Job)) (r : Nat) (j : Job) : List (List Job) :=
  if r < res.length then res.set r (res.getD r [] ++ [j]) else res ++ [[j]]

/-- One trip of `interval_graph_coloring`'s event loop. -/
def igc_step (st : IGCState) (e : Event) : Option IGCState :=
  match e.evt_t with
  | .birth =>
    if h : st.free_rows.Nonempty then
      let row_to_fill := st.free_rows.min' h
      let free' := st.free_rows.erase row_to_fill
      let st' : IGCState :=
        ⟨place_in_row st.res row_to_fill e.job, free', st.max_row,
          sheet_insert e.job.id row_to_fill st.sheet⟩
      if free' = ∅ then
        some ⟨st'.res, insert (st.max_row + 1) free', st.max_row + 1, st'.sheet⟩
      else some st'
    else none
  | .death =>
    match sheet_lookup e.job.id st.sheet with
    | some row_to_vacate =>
      some ⟨st.res, insert row_to_vacate st.free_rows, st.max_row,
        sheet_remove e.job.id st.sheet⟩
    | none => none

def igc_run : List Event → IGCState → Option IGCState
  | [], st => some st
  | e :: rest, st =>
    match igc_step st e with
    | some st' => igc_run rest st'
    | none => none

def igc_init : IGCState := ⟨[], {0}, 0, []⟩

/-- `jobset.rs::interval_graph_coloring`. -/
def interval_graph_coloring (jobs : List Job) : Option (List (List Job)) :=
  (igc_run (get_events jobs) igc_init).map IGCState.res

/-- One step of the concurrent-job counter: running count and maximum. -/
def live_step : Nat × Nat → Event → Nat × Nat
  | (cur, mx), e =>
    match e.evt_t with
    | .birth => (cur + 1, max mx (cur + 1))
    | .death => (cur - 1, mx)

/-- The maximum number of simultaneously live jobs, read off the event
sweep: the spec's "maximum concurrent job count". -/
def max_live_jobs (jobs : List Job) : Nat :=
  ((get_events jobs).foldl live_step (0, 0)).2

/-- A permutation of jobs permutes the pushed events. -/
theorem perm_flatMap {α β : Type} (f : α → List β) :
    ∀ {l1 l2 : List α}, l1.Perm l2 → (l1.flatMap f).Perm (l2.flatMap f) := by
  intro l1 l2 h
  induction h with
  | nil => exact List.Perm.refl _
  | cons x _ ih =>
    simp only [List.flatMap_cons]
    exact List.Perm.append_left (f x) ih
  | swap x y l =>
    simp only [List.flatMap_cons]
    have hc : ((f y ++ f x) ++ l.flatMap f).Perm ((f x ++ f y) ++ l.flatMap f) :=
      (List.perm_append_comm).append_right _
    simpa [List.append_assoc] using hc
  | trans _ _ ih1 ih2 => exact ih1.trans ih2

/-- Removing a present element whose key is unique is, up to permutation,
filtering its key out. -/
theorem filter_key_perm {α : Type} (key : α → Nat) :
    ∀ {l : List α} {x : α}, x ∈ l → (l.map key).Nodup →
      l.Perm (x :: l.filter (fun y => !(key y == key x))) := by
  intro l
  induction l with
  | nil => intro x hx; cases hx
  | cons p rest ih =>
    intro x hmem hnod
    have hnod_rest : (rest.map key).Nodup := (List.nodup_cons.mp hnod).2
    have hp_not : key p ∉ rest.map key := (List.nodup_cons.mp hnod).1
    by_cases hk : key p = key x
    · have hxp : x = p := by
        rcases List.mem_cons.mp hmem with h | h
        · exact h
        · exact absurd (by rw [hk]; exact List.mem_map.mpr ⟨x, h, rfl⟩) hp_not
      have hsr : (p :: rest).filter (fun y => !(key y == key x)) = rest := by
        rw [List.filter_cons]
        have h1 : (!(key p == key x)) = false := by simp [hk]
        rw [h1]
        simp only [Bool.false_eq_true, if_false]
        refine List.filter_eq_self.mpr ?_
        intro q hq
        simp only [Bool.not_eq_eq_eq_not, Bool.not_true, beq_eq_false_iff_ne, ne_eq]
        intro hqk
        exact hp_not (by rw [hk, ← hqk]; exact List.mem_map.mpr ⟨q, hq, rfl⟩)
      rw [hsr, hxp]
    · have hxrest : x ∈ rest := by
        rcases List.mem_cons.mp hmem with h | h
        · exact absurd (by rw [h]) hk
        · exact h
      have hsr : (p :: rest).filter (fun y => !(key y == key x))
          = p :: rest.filter (fun y => !(key y == key x)) := by
        rw [List.filter_cons]
        have h1 : (!(key p == key x)) = true := by simp [hk]
        rw [h1]
        simp
      rw [hsr]
      exact ((ih hxrest hnod_rest).cons p).trans (List.Perm.swap x p _)

/-- A chain of `death ≤ birth` over well-formed jobs is pairwise so. -/
theorem chain_wf_pairwise :
    ∀ l : List Job, l.Chain' (fun a b => a.death ≤ b.birth) →
      (∀ x ∈ l, x.wf) → l.Pairwise (fun a b => a.death ≤ b.birth) := by
  intro l
  induction l with
  | nil => intro _ _; exact List.Pairwise.nil
  | cons a rest ih =>
    intro hch hwf
    have hch' : rest.Chain' (fun a b => a.death ≤ b.birth) := hch.tail
    have hp := ih hch' (fun x hx => hwf x (List.mem_cons_of_mem a hx))
    refine List.pairwise_cons.mpr ⟨?_, hp⟩
    intro y hy
    cases rest with
    | nil => cases hy
    | cons b rest' =>
      have hab : a.death ≤ b.birth := (List.chain'_cons.mp hch).1
      rcases List.mem_cons.mp hy with h | h
      · rw [h]; exact hab
      · have hby : b.death ≤ y.birth :=
          (List.pairwise_cons.mp hp).1 y h
        have hbwf : b.wf := hwf b (by simp)
        exact le_trans hab (le_trans (le_of_lt hbwf) hby)

/-- Sorted events have monotone times. -/
theorem eventLE_time {a b : Event} (h : eventLE a b) : a.time ≤ b.time := by
  unfold eventLE event_key at h
  cases ha : a.evt_t <;> cases hb : b.evt_t <;> rw [ha, hb] at h <;>
    simp [kind_rank] at h ⊢ <;> omega

/-- The death event a job contributes to the stream. -/
def death_event (j : Job) : Event := ⟨j, .death, j.death⟩

/-- The run invariant of the IGC event loop: `AS` lists the alive jobs with
their rows, `F` the jobs not yet born, `E` the remaining events. -/
structure IGCInv (st : IGCState) (E : List Event) (AS : List (Job × Nat))
    (F : List Job) : Prop where
  hsorted : List.Sorted eventLE E
  hperm : E.Perm ((AS.map fun q => death_event q.1) ++ F.flatMap job_events)
  hids : ((AS.map fun q => q.1.id) ++ F.map Job.id).Nodup
  hwfA : ∀ q ∈ AS, Job.wf q.1
  hwfF : ∀ j ∈ F, j.wf
  hsheet : st.sheet = AS.map (fun q => (q.1.id, q.2))
  hfree_ne : st.free_rows.Nonempty
  hrows_nodup : (AS.map Prod.snd).Nodup
  hpart : st.free_rows ∪ (AS.map Prod.snd).toFinset = Finset.range (st.max_row + 1)
  hdisj : Disjoint st.free_rows (AS.map Prod.snd).toFinset
  hreslen : st.res.length ≤ st.max_row + 1
  hocc_lt : ∀ q ∈ AS, q.2 < st.res.length
  hchain : ∀ r : Nat, (st.res.getD r []).Chain' (fun a b => a.death ≤ b.birth)
  hlast : ∀ q ∈ AS, ∃ l, st.res.getD q.2 [] = l ++ [q.1]
  hfree_past : ∀ r ∈ st.free_rows, ∀ l x, st.res.getD r [] = l ++ [x] →
    ∀ e ∈ E, x.death ≤ e.time
  hres_wf : ∀ r : Nat, ∀ x ∈ st.res.getD r [], x.wf

theorem sheet_lookup_map :
    ∀ (AS : List (Job × Nat)) (q : Job × Nat),
      ((AS.map fun x => x.1.id).Nodup) → q ∈ AS →
      sheet_lookup q.1.id (AS.map fun x => (x.1.id, x.2)) = some q.2 := by
  intro AS
  induction AS with
  | nil => intro q _ hq; cases hq
  | cons p rest ih =>
    intro q hnod hq
    simp only [List.map_cons, sheet_lookup]
    by_cases h : p.1.id = q.1.id
    · rw [if_pos h]
      rcases List.mem_cons.mp hq with rfl | hqr
      · rfl
      · have hqm : q.1.id ∈ List.map (fun x => x.1.id) rest :=
          List.mem_map.mpr ⟨q, hqr, rfl⟩
        have hpm : p.1.id ∈ List.map (fun x => x.1.id) rest := by
          rw [h]
          exact hqm
        exact absurd hpm (List.nodup_cons.mp hnod).1
    · rw [if_neg h]
      have hqr : q ∈ rest := by
        rcases List.mem_cons.mp hq with rfl | hqr
        · exact absurd rfl h
        · exact hqr
      exact ih q (List.nodup_cons.mp hnod).2 hqr

theorem igc_death_spec (st : IGCState) (e : Event) (E' : List Event)
    (AS : List (Job × Nat)) (F : List Job)
    (hinv : IGCInv st (e :: E') AS F) (hkind : e.evt_t = EventKind.death) :
    ∃ st' AS', igc_step st e = some st' ∧ IGCInv st' E' AS' F ∧
      st'.res = st.res ∧ AS.length = AS'.length + 1 := by
  have hAids : ((AS.map fun x => x.1.id).Nodup) :=
    (List.nodup_append.mp hinv.hids).1
  have hmem : e ∈ (AS.map fun q => death_event q.1) ++ F.flatMap job_events :=
    hinv.hperm.mem_iff.mp (List.mem_cons_self e E')
  rcases List.mem_append.mp hmem with hAS | hF
  · rcases List.mem_map.mp hAS with ⟨q, hq, heq⟩
    subst heq
    have hlookup : sheet_lookup q.1.id st.sheet = some q.2 := by
      rw [hinv.hsheet]
      exact sheet_lookup_map AS q hAids hq
    refine ⟨⟨st.res, insert q.2 st.free_rows, st.max_row,
      sheet_remove q.1.id st.sheet⟩,
      AS.filter (fun x => !(x.1.id == q.1.id)), ?_, ?_, rfl, ?_⟩
    · simp only [igc_step, death_event, hlookup]
    · have hASperm : AS.Perm (q :: AS.filter (fun x => !(x.1.id == q.1.id))) :=
        filter_key_perm (fun x => x.1.id) hq hAids
      have hsub : (AS.filter (fun x => !(x.1.id == q.1.id))).Sublist AS :=
        List.filter_sublist AS
      have hsorted' := (List.sorted_cons.mp hinv.hsorted).2
      have hhead := (List.sorted_cons.mp hinv.hsorted).1
      have hocc_perm : (AS.map Prod.snd).Perm
          (q.2 :: (AS.filter (fun x => !(x.1.id == q.1.id))).map Prod.snd) := by
        have := hASperm.map Prod.snd
        simpa using this
      have hocc_nodup : (q.2 :: (AS.filter (fun x => !(x.1.id == q.1.id))).map
          Prod.snd).Nodup := hinv.hrows_nodup.perm hocc_perm
      have hocc_fin : (AS.map Prod.snd).toFinset
          = insert q.2 ((AS.filter (fun x => !(x.1.id == q.1.id))).map
            Prod.snd).toFinset := by
        rw [List.toFinset_eq_of_perm _ _ hocc_perm]
        simp
      refine ⟨hsorted', ?_, ?_, ?_, hinv.hwfF, ?_, ?_, ?_, ?_, ?_, hinv.hreslen,
        ?_, hinv.hchain, ?_, ?_, hinv.hres_wf⟩
      · have hD := hASperm.map (fun q => death_event q.1)
        have h2 := hD.append_right (F.flatMap job_events)
        simp only [List.map_cons] at h2
        have h1 : ((death_event q.1) :: E').Perm ((death_event q.1) ::
            ((AS.filter (fun x => !(x.1.id == q.1.id))).map
              (fun q => death_event q.1) ++ F.flatMap job_events)) := by
          refine hinv.hperm.trans ?_
          simpa [List.cons_append] using h2
        exact h1.cons_inv
      · refine List.Nodup.sublist ?_ hinv.hids
        exact List.Sublist.append (hsub.map _) (List.Sublist.refl _)
      · intro p hp
        exact hinv.hwfA p (List.mem_of_mem_filter hp)
      · show sheet_remove q.1.id st.sheet = _
        rw [hinv.hsheet]
        show (AS.map fun x => (x.1.id, x.2)).filter _ = _
        rw [List.filter_map]
        congr 1
      · exact Finset.insert_nonempty _ _
      · exact (List.nodup_cons.mp hocc_nodup).2
      · show insert q.2 st.free_rows ∪ _ = Finset.range (st.max_row + 1)
        rw [← hinv.hpart, hocc_fin, Finset.insert_union, Finset.union_insert]
      · show Disjoint (insert q.2 st.free_rows) _
        rw [Finset.disjoint_insert_left]
        constructor
        · intro hc
          exact (List.nodup_cons.mp hocc_nodup).1 (List.mem_toFinset.mp hc)
        · refine Finset.disjoint_of_subset_right ?_ hinv.hdisj
          rw [hocc_fin]
          exact Finset.subset_insert _ _
      · intro p hp
        exact hinv.hocc_lt p (List.mem_of_mem_filter hp)
      · intro p hp
        exact hinv.hlast p (List.mem_of_mem_filter hp)
      · intro r hr l x hlist e' he'
        have htime : (death_event q.1).time ≤ e'.time :=
          eventLE_time (hhead e' he')
        rcases Finset.mem_insert.mp hr with rfl | hrf
        · rcases hinv.hlast q hq with ⟨l0, hl0⟩
          have hx : x = q.1 := by
            have := hl0 ▸ hlist
            have h1 : (l ++ [x]).getLast? = (l0 ++ [q.1]).getLast? := by rw [this]
            simpa using h1
          rw [hx]
          exact htime
        · exact hinv.hfree_past r hrf l x hlist e' (List.mem_cons_of_mem _ he')
    · have hASperm : AS.Perm (q :: AS.filter (fun x => !(x.1.id == q.1.id))) :=
        filter_key_perm (fun x => x.1.id) hq hAids
      have := hASperm.length_eq
      simpa using this
  · exfalso
    rcases List.mem_flatMap.mp hF with ⟨f, hf, he⟩
    rcases List.mem_cons.mp he with hb | hd
    · rw [hb] at hkind
      cases hkind
    · have hd' : e = ⟨f, EventKind.death, f.death⟩ := by
        simpa [job_events] using hd
      have hbirth_mem : (⟨f, EventKind.birth, f.birth⟩ : Event) ∈ e :: E' := by
        refine hinv.hperm.mem_iff.mpr ?_
        refine List.mem_append.mpr (Or.inr ?_)
        exact List.mem_flatMap.mpr ⟨f, hf, by simp [job_events]⟩
      have hwff := hinv.hwfF f hf
      rcases List.mem_cons.mp hbirth_mem with hbe | hbe
      · rw [hd'] at hbe
        cases hbe
      · have hle := (List.sorted_cons.mp hinv.hsorted).1 _ hbe
        rw [hd'] at hle
        unfold eventLE event_key at hle
        simp [kind_rank] at hle
        unfold Job.wf at hwff
        omega

theorem igc_birth_spec (st : IGCState) (e : Event) (E' : List Event)
    (AS : List (Job × Nat)) (F : List Job)
    (hinv : IGCInv st (e :: E') AS F) (hkind : e.evt_t = EventKind.birth) :
    ∃ st' s f t row, F = s ++ f :: t ∧ e.job = f ∧
      igc_step st e = some st' ∧
      IGCInv st' E' ((f, row) :: AS) (s ++ t) ∧
      st'.res.length = max st.res.length (AS.length + 1) := by
  have hmem : e ∈ (AS.map fun q => death_event q.1) ++ F.flatMap job_events :=
    hinv.hperm.mem_iff.mp (List.mem_cons_self e E')
  rcases List.mem_append.mp hmem with hAS | hF
  · exfalso
    rcases List.mem_map.mp hAS with ⟨q, _, heq⟩
    rw [← heq] at hkind
    cases hkind
  rcases List.mem_flatMap.mp hF with ⟨f, hf, he⟩
  have hbe : e = ⟨f, EventKind.birth, f.birth⟩ := by
    rcases List.mem_cons.mp he with hb | hd
    · exact hb
    · exfalso
      have hd' : e = ⟨f, EventKind.death, f.death⟩ := by
        simpa [job_events] using hd
      rw [hd'] at hkind
      cases hkind
  subst hbe
  rcases List.append_of_mem hf with ⟨s, t, hF2⟩
  have hnd := List.nodup_append.mp hinv.hids
  have hfidF : f.id ∈ F.map Job.id := List.mem_map.mpr ⟨f, hf, rfl⟩
  have hfid_notAS : f.id ∉ AS.map (fun q => q.1.id) := fun hc => hnd.2.2 hc hfidF
  -- facts about the popped minimum row
  have hm_mem : st.free_rows.min' hinv.hfree_ne ∈ st.free_rows :=
    Finset.min'_mem _ _
  have hm_notoccL : st.free_rows.min' hinv.hfree_ne ∉ AS.map Prod.snd := by
    intro hc
    exact Finset.disjoint_left.mp hinv.hdisj hm_mem (List.mem_toFinset.mpr hc)
  have hm_notocc : st.free_rows.min' hinv.hfree_ne
      ∉ (AS.map Prod.snd).toFinset := by
    intro hc
    exact hm_notoccL (List.mem_toFinset.mp hc)
  have hm_le_max : st.free_rows.min' hinv.hfree_ne ≤ st.max_row := by
    have h1 : st.free_rows.min' hinv.hfree_ne ∈ Finset.range (st.max_row + 1) := by
      rw [← hinv.hpart]
      exact Finset.mem_union_left _ hm_mem
    have := Finset.mem_range.mp h1
    omega
  have hm_le_len : st.free_rows.min' hinv.hfree_ne ≤ st.res.length := by
    by_contra hlt
    have h1 : st.res.length ∈ Finset.range (st.max_row + 1) := by
      rw [Finset.mem_range]
      omega
    rw [← hinv.hpart] at h1
    rcases Finset.mem_union.mp h1 with hfr | hocc
    · exact absurd (Finset.min'_le _ _ hfr) (by omega)
    · rcases List.mem_map.mp (List.mem_toFinset.mp hocc) with ⟨p, hp, hps⟩
      have := hinv.hocc_lt p hp
      omega
  -- the new sheet
  have hsheet_eq : sheet_insert f.id (st.free_rows.min' hinv.hfree_ne) st.sheet
      = ((f, st.free_rows.min' hinv.hfree_ne) :: AS).map
          (fun q => (q.1.id, q.2)) := by
    unfold sheet_insert
    rw [hinv.hsheet]
    simp only [List.map_cons]
    congr 1
    unfold sheet_remove
    refine List.filter_eq_self.mpr ?_
    intro p hp
    rcases List.mem_map.mp hp with ⟨q, hq, hpq⟩
    rw [← hpq]
    simp only [Bool.not_eq_eq_eq_not, Bool.not_true, beq_eq_false_iff_ne, ne_eq]
    intro hqf
    exact hfid_notAS (by rw [← hqf]; exact List.mem_map.mpr ⟨q, hq, rfl⟩)
  -- length of the updated rows
  have hplace_len :
      (place_in_row st.res (st.free_rows.min' hinv.hfree_ne) f).length
        = max st.res.length (AS.length + 1) := by
    by_cases hml : st.free_rows.min' hinv.hfree_ne < st.res.length
    · unfold place_in_row
      rw [if_pos hml, List.length_set]
      have hsub : insert (st.free_rows.min' hinv.hfree_ne)
          (AS.map Prod.snd).toFinset ⊆ Finset.range st.res.length := by
        intro x hx
        rw [Finset.mem_range]
        rcases Finset.mem_insert.mp hx with rfl | hx2
        · exact hml
        · rcases List.mem_map.mp (List.mem_toFinset.mp hx2) with ⟨p, hp, hps⟩
          have := hinv.hocc_lt p hp
          omega
      have hcard := Finset.card_le_card hsub
      rw [Finset.card_insert_of_not_mem hm_notocc,
        List.toFinset_card_of_nodup hinv.hrows_nodup, Finset.card_range,
        List.length_map] at hcard
      omega
    · have hmeq : st.free_rows.min' hinv.hfree_ne = st.res.length := by omega
      unfold place_in_row
      rw [if_neg hml]
      rw [List.length_append]
      have hocc_sub : (AS.map Prod.snd).toFinset ⊆ Finset.range st.res.length := by
        intro x hx
        rw [Finset.mem_range]
        rcases List.mem_map.mp (List.mem_toFinset.mp hx) with ⟨p, hp, hps⟩
        have := hinv.hocc_lt p hp
        omega
      have hrange_sub : Finset.range st.res.length ⊆ (AS.map Prod.snd).toFinset := by
        intro r hr
        have hr' : r < st.res.length := Finset.mem_range.mp hr
        have hrin : r ∈ Finset.range (st.max_row + 1) := by
          rw [Finset.mem_range]
          have := hinv.hreslen
          omega
        rw [← hinv.hpart] at hrin
        rcases Finset.mem_union.mp hrin with hfr | ho
        · exact absurd (Finset.min'_le _ _ hfr) (by omega)
        · exact ho
      have hc := congrArg Finset.card (Finset.Subset.antisymm hocc_sub hrange_sub)
      rw [List.toFinset_card_of_nodup hinv.hrows_nodup, Finset.card_range,
        List.length_map] at hc
      simp only [List.length_cons, List.length_nil]
      omega
  have hlen_ge : st.res.length
      ≤ (place_in_row st.res (st.free_rows.min' hinv.hfree_ne) f).length := by
    rw [hplace_len]
    omega
  have hlen_le : (place_in_row st.res (st.free_rows.min' hinv.hfree_ne) f).length
      ≤ st.res.length + 1 := by
    rw [hplace_len]
    have hsub : insert (st.free_rows.min' hinv.hfree_ne)
        (AS.map Prod.snd).toFinset ⊆ Finset.range (st.res.length + 1) := by
      intro x hx
      rw [Finset.mem_range]
      rcases Finset.mem_insert.mp hx with rfl | hx2
      · omega
      · rcases List.mem_map.mp (List.mem_toFinset.mp hx2) with ⟨p, hp, hps⟩
        have := hinv.hocc_lt p hp
        omega
    have hcard := Finset.card_le_card hsub
    rw [Finset.card_insert_of_not_mem hm_notocc,
      List.toFinset_card_of_nodup hinv.hrows_nodup, Finset.card_range,
      List.length_map] at hcard
    omega
  -- row contents after the placement
  have hgetD_ne : ∀ r, r ≠ st.free_rows.min' hinv.hfree_ne →
      (place_in_row st.res (st.free_rows.min' hinv.hfree_ne) f).getD r []
        = st.res.getD r [] := by
    intro r hr
    unfold place_in_row
    by_cases hml : st.free_rows.min' hinv.hfree_ne < st.res.length
    · rw [if_pos hml]
      simp [List.getD_eq_getElem?_getD, List.getElem?_set_ne (Ne.symm hr)]
    · rw [if_neg hml]
      have hmeq : st.free_rows.min' hinv.hfree_ne = st.res.length := by omega
      by_cases hrl : r < st.res.length
      · simp [List.getD_eq_getElem?_getD, List.getElem?_append_left hrl]
      · have h1 : (st.res ++ [[f]]).getD r [] = [] := by
          simp only [List.getD_eq_getElem?_getD]
          rw [List.getElem?_eq_none
            (show (st.res ++ [[f]]).length ≤ r by
              rw [List.length_append]
              simp only [List.length_cons, List.length_nil]
              omega)]
          rfl
        have h2 : st.res.getD r [] = [] := by
          simp only [List.getD_eq_getElem?_getD]
          rw [List.getElem?_eq_none (show st.res.length ≤ r by omega)]
          rfl
        rw [h1, h2]
  have hgetD_self :
      (place_in_row st.res (st.free_rows.min' hinv.hfree_ne) f).getD
          (st.free_rows.min' hinv.hfree_ne) []
        = st.res.getD (st.free_rows.min' hinv.hfree_ne) [] ++ [f] := by
    unfold place_in_row
    by_cases hml : st.free_rows.min' hinv.hfree_ne < st.res.length
    · rw [if_pos hml]
      simp [List.getD_eq_getElem?_getD, List.getElem?_set_self, hml]
    · rw [if_neg hml]
      have hmeq : st.free_rows.min' hinv.hfree_ne = st.res.length := by omega
      rw [hmeq]
      have h1 : (st.res ++ [[f]]).getD st.res.length [] = [f] := by
        simp [List.getD_eq_getElem?_getD]
      have h2 : st.res.getD st.res.length [] = [] := by
        simp only [List.getD_eq_getElem?_getD]
        rw [List.getElem?_eq_none (le_refl st.res.length)]
        rfl
      rw [h1, h2]
      rfl
  have hsorted' : List.Sorted eventLE E' := (List.sorted_cons.mp hinv.hsorted).2
  have hm_lt_new : st.free_rows.min' hinv.hfree_ne
      < (place_in_row st.res (st.free_rows.min' hinv.hfree_ne) f).length := by
    unfold place_in_row
    by_cases hml : st.free_rows.min' hinv.hfree_ne < st.res.length
    · rw [if_pos hml, List.length_set]
      exact hml
    · rw [if_neg hml, List.length_append]
      simp only [List.length_cons, List.length_nil]
      omega
  have hchain_new : ∀ r : Nat,
      ((place_in_row st.res (st.free_rows.min' hinv.hfree_ne) f).getD r []).Chain'
        (fun a b => a.death ≤ b.birth) := by
    intro r
    by_cases hr : r = st.free_rows.min' hinv.hfree_ne
    · rw [hr, hgetD_self]
      rcases List.eq_nil_or_concat
          (st.res.getD (st.free_rows.min' hinv.hfree_ne) []) with hnil | ⟨l0, x, hlx⟩
      · rw [hnil]
        simp
      · rw [List.concat_eq_append] at hlx
        refine List.chain'_append.mpr
          ⟨hinv.hchain (st.free_rows.min' hinv.hfree_ne),
            List.chain'_singleton f, ?_⟩
        intro y hy z hz
        have hz' : z = f := Eq.symm (by simpa using hz)
        have hy' : y = x := by
          rw [hlx] at hy
          exact Eq.symm (by simpa using hy)
        have hb := hinv.hfree_past (st.free_rows.min' hinv.hfree_ne) hm_mem l0 x
          hlx ⟨f, EventKind.birth, f.birth⟩ (List.mem_cons_self _ _)
        rw [hy', hz']
        exact hb
    · rw [hgetD_ne r hr]
      exact hinv.hchain r
  have hlast_new : ∀ q ∈ ((f, st.free_rows.min' hinv.hfree_ne) :: AS),
      ∃ l, (place_in_row st.res (st.free_rows.min' hinv.hfree_ne) f).getD q.2 []
        = l ++ [q.1] := by
    intro q hq
    rcases List.mem_cons.mp hq with rfl | hqAS
    · exact ⟨st.res.getD (st.free_rows.min' hinv.hfree_ne) [], hgetD_self⟩
    · have hq2 : q.2 ≠ st.free_rows.min' hinv.hfree_ne := by
        intro hc
        exact hm_notoccL (hc ▸ List.mem_map.mpr ⟨q, hqAS, rfl⟩)
      rw [hgetD_ne q.2 hq2]
      exact hinv.hlast q hqAS
  have hreswf_new : ∀ r : Nat,
      ∀ x ∈ (place_in_row st.res (st.free_rows.min' hinv.hfree_ne) f).getD r [],
        x.wf := by
    intro r x hx
    by_cases hr : r = st.free_rows.min' hinv.hfree_ne
    · rw [hr, hgetD_self] at hx
      rcases List.mem_append.mp hx with h | h
      · exact hinv.hres_wf _ x h
      · have : x = f := by simpa using h
        rw [this]
        exact hinv.hwfF f hf
    · rw [hgetD_ne r hr] at hx
      exact hinv.hres_wf r x hx
  have hocc_lt_new : ∀ q ∈ ((f, st.free_rows.min' hinv.hfree_ne) :: AS),
      q.2 < (place_in_row st.res (st.free_rows.min' hinv.hfree_ne) f).length := by
    intro q hq
    rcases List.mem_cons.mp hq with rfl | hqAS
    · exact hm_lt_new
    · have := hinv.hocc_lt q hqAS
      omega
  have hrows_nodup_new :
      ((((f, st.free_rows.min' hinv.hfree_ne) :: AS)).map Prod.snd).Nodup := by
    simp only [List.map_cons]
    exact List.nodup_cons.mpr ⟨hm_notoccL, hinv.hrows_nodup⟩
  have hwfA_new : ∀ q ∈ ((f, st.free_rows.min' hinv.hfree_ne) :: AS), Job.wf q.1 := by
    intro q hq
    rcases List.mem_cons.mp hq with rfl | hqAS
    · exact hinv.hwfF f hf
    · exact hinv.hwfA q hqAS
  have hwfF_new : ∀ j ∈ s ++ t, j.wf := by
    intro j hj
    refine hinv.hwfF j ?_
    rw [hF2]
    rcases List.mem_append.mp hj with h | h
    · exact List.mem_append.mpr (Or.inl h)
    · exact List.mem_append.mpr (Or.inr (List.mem_cons_of_mem f h))
  -- the event-stream permutation for the new state
  have hFM : F.flatMap job_events
      = s.flatMap job_events ++ ((⟨f, EventKind.birth, f.birth⟩ : Event) ::
          (death_event f :: t.flatMap job_events)) := by
    rw [hF2]
    simp [List.flatMap_append, job_events, death_event, List.append_assoc]
  have hperm1 := hinv.hperm
  rw [hFM] at hperm1
  have p1 : (s.flatMap job_events ++ ((⟨f, EventKind.birth, f.birth⟩ : Event) ::
      (death_event f :: t.flatMap job_events))).Perm
      ((⟨f, EventKind.birth, f.birth⟩ : Event) ::
        (s.flatMap job_events ++ (death_event f :: t.flatMap job_events))) :=
    List.perm_middle
  have p2 : (s.flatMap job_events ++ (death_event f :: t.flatMap job_events)).Perm
      (death_event f :: (s.flatMap job_events ++ t.flatMap job_events)) :=
    List.perm_middle
  have p3 := p1.trans (p2.cons _)
  have p4 := List.Perm.append_left (AS.map (fun q => death_event q.1)) p3
  have p5 : (AS.map (fun q => death_event q.1) ++
      ((⟨f, EventKind.birth, f.birth⟩ : Event) ::
        (death_event f :: (s.flatMap job_events ++ t.flatMap job_events)))).Perm
      ((⟨f, EventKind.birth, f.birth⟩ : Event) ::
        (AS.map (fun q => death_event q.1) ++
          (death_event f :: (s.flatMap job_events ++ t.flatMap job_events)))) :=
    List.perm_middle
  have p6 : (AS.map (fun q => death_event q.1) ++
      (death_event f :: (s.flatMap job_events ++ t.flatMap job_events))).Perm
      (death_event f :: (AS.map (fun q => death_event q.1) ++
        (s.flatMap job_events ++ t.flatMap job_events))) :=
    List.perm_middle
  have ptot := (hperm1.trans (p4.trans (p5.trans (p6.cons _)))).cons_inv
  have hperm_new : E'.Perm
      ((((f, st.free_rows.min' hinv.hfree_ne) :: AS).map
          (fun q => death_event q.1)) ++ (s ++ t).flatMap job_events) := by
    have heq2 : ((((f, st.free_rows.min' hinv.hfree_ne) :: AS).map
        (fun q => death_event q.1)) ++ (s ++ t).flatMap job_events)
        = death_event f :: (AS.map (fun q => death_event q.1) ++
            (s.flatMap job_events ++ t.flatMap job_events)) := by
      simp [List.flatMap_append, List.append_assoc]
    rw [heq2]
    exact ptot
  have hidsF := hinv.hids
  rw [hF2] at hidsF
  simp only [List.map_append, List.map_cons] at hidsF
  have q1 : (s.map Job.id ++ (f.id :: t.map Job.id)).Perm
      (f.id :: (s.map Job.id ++ t.map Job.id)) := List.perm_middle
  have q2 := List.Perm.append_left (AS.map fun q => q.1.id) q1
  have q3 : (AS.map (fun q => q.1.id) ++
      (f.id :: (s.map Job.id ++ t.map Job.id))).Perm
      (f.id :: (AS.map (fun q => q.1.id) ++ (s.map Job.id ++ t.map Job.id))) :=
    List.perm_middle
  have hids_new : ((((f, st.free_rows.min' hinv.hfree_ne) :: AS).map
      (fun q => q.1.id)) ++ (s ++ t).map Job.id).Nodup := by
    have hshape : ((((f, st.free_rows.min' hinv.hfree_ne) :: AS).map
        (fun q => q.1.id)) ++ (s ++ t).map Job.id)
        = f.id :: (AS.map (fun q => q.1.id) ++
            (s.map Job.id ++ t.map Job.id)) := by
      simp [List.append_assoc]
    rw [hshape]
    exact hidsF.perm (q2.trans q3)
  have hplace_le_max1 :
      (place_in_row st.res (st.free_rows.min' hinv.hfree_ne) f).length
        ≤ st.max_row + 1 := by
    unfold place_in_row
    by_cases hml : st.free_rows.min' hinv.hfree_ne < st.res.length
    · rw [if_pos hml, List.length_set]
      exact hinv.hreslen
    · rw [if_neg hml, List.length_append]
      simp only [List.length_cons, List.length_nil]
      omega
  have hstep : igc_step st ⟨f, EventKind.birth, f.birth⟩
      = (if st.free_rows.erase (st.free_rows.min' hinv.hfree_ne) = ∅ then
          some ⟨place_in_row st.res (st.free_rows.min' hinv.hfree_ne) f,
            insert (st.max_row + 1)
              (st.free_rows.erase (st.free_rows.min' hinv.hfree_ne)),
            st.max_row + 1,
            sheet_insert f.id (st.free_rows.min' hinv.hfree_ne) st.sheet⟩
        else
          some ⟨place_in_row st.res (st.free_rows.min' hinv.hfree_ne) f,
            st.free_rows.erase (st.free_rows.min' hinv.hfree_ne), st.max_row,
            sheet_insert f.id (st.free_rows.min' hinv.hfree_ne) st.sheet⟩) := by
    simp only [igc_step]
    rw [dif_pos hinv.hfree_ne]
  by_cases hfe : st.free_rows.erase (st.free_rows.min' hinv.hfree_ne) = ∅
  · refine ⟨⟨place_in_row st.res (st.free_rows.min' hinv.hfree_ne) f,
      insert (st.max_row + 1)
        (st.free_rows.erase (st.free_rows.min' hinv.hfree_ne)),
      st.max_row + 1,
      sheet_insert f.id (st.free_rows.min' hinv.hfree_ne) st.sheet⟩,
      s, f, t, st.free_rows.min' hinv.hfree_ne, hF2, rfl, ?_, ?_, hplace_len⟩
    · rw [hstep, if_pos hfe]
    · have hfree_sing : st.free_rows = {st.free_rows.min' hinv.hfree_ne} := by
        apply Finset.Subset.antisymm
        · intro x hx
          by_cases hxm : x = st.free_rows.min' hinv.hfree_ne
          · simp [hxm]
          · exact absurd (Finset.mem_erase.mpr ⟨hxm, hx⟩) (by rw [hfe]; simp)
        · intro x hx
          rw [Finset.mem_singleton] at hx
          rw [hx]
          exact hm_mem
      have hpart2 : insert (st.free_rows.min' hinv.hfree_ne)
          (AS.map Prod.snd).toFinset = Finset.range (st.max_row + 1) := by
        have h0 := hinv.hpart
        rw [hfree_sing, ← Finset.insert_eq] at h0
        exact h0
      refine ⟨hsorted', hperm_new, hids_new, hwfA_new, hwfF_new, hsheet_eq,
        Finset.insert_nonempty _ _, hrows_nodup_new, ?_, ?_, ?_,
        hocc_lt_new, hchain_new, hlast_new, ?_, hreswf_new⟩
      · show insert (st.max_row + 1)
          (st.free_rows.erase (st.free_rows.min' hinv.hfree_ne)) ∪ _
            = Finset.range (st.max_row + 1 + 1)
        rw [hfe]
        simp only [List.map_cons, List.toFinset_cons]
        rw [Finset.insert_union, Finset.empty_union, hpart2]
        exact (Finset.range_succ).symm
      · show Disjoint (insert (st.max_row + 1)
          (st.free_rows.erase (st.free_rows.min' hinv.hfree_ne))) _
        rw [hfe]
        simp only [List.map_cons, List.toFinset_cons]
        rw [Finset.disjoint_insert_left]
        constructor
        · intro hc
          rcases Finset.mem_insert.mp hc with h | h
          · omega
          · have : st.max_row + 1 ∈ Finset.range (st.max_row + 1) := by
              rw [← hinv.hpart]
              exact Finset.mem_union_right _ h
            have := Finset.mem_range.mp this
            omega
        · exact Finset.disjoint_empty_left _
      · show (place_in_row st.res (st.free_rows.min' hinv.hfree_ne) f).length
          ≤ st.max_row + 1 + 1
        omega
      · intro r hr l x hlist e' he'
        rw [hfe] at hr
        have hrm : r = st.max_row + 1 := by simpa using hr
        have hout : (place_in_row st.res
            (st.free_rows.min' hinv.hfree_ne) f).getD r [] = [] := by
          simp only [List.getD_eq_getElem?_getD]
          rw [List.getElem?_eq_none (show (place_in_row st.res
            (st.free_rows.min' hinv.hfree_ne) f).length ≤ r by omega)]
          rfl
        rw [hout] at hlist
        exact absurd hlist (by simp)
  · refine ⟨⟨place_in_row st.res (st.free_rows.min' hinv.hfree_ne) f,
      st.free_rows.erase (st.free_rows.min' hinv.hfree_ne), st.max_row,
      sheet_insert f.id (st.free_rows.min' hinv.hfree_ne) st.sheet⟩,
      s, f, t, st.free_rows.min' hinv.hfree_ne, hF2, rfl, ?_, ?_, hplace_len⟩
    · rw [hstep, if_neg hfe]
    · refine ⟨hsorted', hperm_new, hids_new, hwfA_new, hwfF_new, hsheet_eq,
        Finset.nonempty_iff_ne_empty.mpr hfe, hrows_nodup_new, ?_, ?_,
        hplace_le_max1, hocc_lt_new, hchain_new, hlast_new, ?_, hreswf_new⟩
      · show st.free_rows.erase (st.free_rows.min' hinv.hfree_ne) ∪ _
          = Finset.range (st.max_row + 1)
        simp only [List.map_cons, List.toFinset_cons]
        rw [Finset.union_insert, ← Finset.insert_union,
          Finset.insert_erase hm_mem, hinv.hpart]
      · show Disjoint (st.free_rows.erase (st.free_rows.min' hinv.hfree_ne)) _
        simp only [List.map_cons, List.toFinset_cons]
        rw [Finset.disjoint_insert_right]
        exact ⟨Finset.not_mem_erase _ _,
          Finset.disjoint_of_subset_left (Finset.erase_subset _ _) hinv.hdisj⟩
      · intro r hr l x hlist e' he'
        rcases Finset.mem_erase.mp hr with ⟨hne, hmem'⟩
        rw [hgetD_ne r hne] at hlist
        exact hinv.hfree_past r hmem' l x hlist e' (List.mem_cons_of_mem _ he')

/-- Running the IGC loop from an invariant state never panics, keeps every
row a `death ≤ birth` chain of well-formed jobs, and ends with exactly as
many rows as the concurrent-job sweep reports. -/
theorem igc_run_spec :
    ∀ (E : List Event) (st : IGCState) (AS : List (Job × Nat)) (F : List Job),
      IGCInv st E AS F →
      ∃ fin : IGCState, igc_run E st = some fin ∧
        (∀ r : Nat, ((fin.res.getD r []).Chain' (fun a b => a.death ≤ b.birth)) ∧
          ∀ x ∈ fin.res.getD r [], x.wf) ∧
        fin.res.length = (E.foldl live_step (AS.length, st.res.length)).2 := by
  intro E
  induction E with
  | nil =>
    intro st AS F hinv
    exact ⟨st, rfl, fun r => ⟨hinv.hchain r, fun x hx => hinv.hres_wf r x hx⟩, rfl⟩
  | cons e E' ih =>
    intro st AS F hinv
    cases hkind : e.evt_t with
    | birth =>
      obtain ⟨st', s, f, t, row, hF2, hej, hstep, hinv', hlen⟩ :=
        igc_birth_spec st e E' AS F hinv hkind
      obtain ⟨fin, hrun, hch, hcnt⟩ := ih st' ((f, row) :: AS) (s ++ t) hinv'
      refine ⟨fin, ?_, hch, ?_⟩
      · simp only [igc_run, hstep]
        exact hrun
      · have hls : live_step (AS.length, st.res.length) e
            = (((f, row) :: AS).length, st'.res.length) := by
          simp only [live_step]
          rw [hkind]
          simp only [List.length_cons]
          rw [hlen]
        simp only [List.foldl_cons]
        rw [hls]
        exact hcnt
    | death =>
      obtain ⟨st', AS', hstep, hinv', hres, hlen⟩ :=
        igc_death_spec st e E' AS F hinv hkind
      obtain ⟨fin, hrun, hch, hcnt⟩ := ih st' AS' F hinv'
      refine ⟨fin, ?_, hch, ?_⟩
      · simp only [igc_run, hstep]
        exact hrun
      · have hls : live_step (AS.length, st.res.length) e
            = (AS'.length, st'.res.length) := by
          simp only [live_step]
          rw [hkind, hres]
          have h1 : AS.length - 1 = AS'.length := by omega
          rw [h1]
        simp only [List.foldl_cons]
        rw [hls]
        exact hcnt

theorem igc_init_inv (js : List Job) (hids : (js.map Job.id).Nodup)
    (hwf : ∀ j ∈ js, j.wf) : IGCInv igc_init (get_events js) [] js := by
  refine ⟨get_events_sorted js, ?_, ?_, ?_, hwf, rfl, ?_, ?_, ?_, ?_, ?_, ?_,
    ?_, ?_, ?_, ?_⟩
  · simpa using get_events_perm js
  · simpa using hids
  · intro q hq
    cases hq
  · exact ⟨0, by simp [igc_init]⟩
  · simp
  · show igc_init.free_rows ∪ _ = Finset.range (igc_init.max_row + 1)
    simp [igc_init]
  · simp [igc_init]
  · show igc_init.res.length ≤ igc_init.max_row + 1
    simp [igc_init]
  · intro q hq
    cases hq
  · intro r
    simp [igc_init]
  · intro q hq
    cases hq
  · intro r _ l x hlist e' _
    exfalso
    simp [igc_init] at hlist
  · intro r x hx
    exfalso
    simp [igc_init] at hx

theorem live_foldl_kinds :
    ∀ (E1 E2 : List Event), E1.map Event.evt_t = E2.map Event.evt_t →
      ∀ p : Nat × Nat, E1.foldl live_step p = E2.foldl live_step p := by
  intro E1
  induction E1 with
  | nil =>
    intro E2 h p
    cases E2 with
    | nil => rfl
    | cons e es => simp at h
  | cons e es ih =>
    intro E2 h p
    cases E2 with
    | nil => simp at h
    | cons e2 es2 =>
      simp only [List.map_cons, List.cons.injEq] at h
      obtain ⟨hk, ht⟩ := h
      simp only [List.foldl_cons]
      have hstep : live_step p e = live_step p e2 := by
        rcases p with ⟨c, m⟩
        simp only [live_step]
        rw [hk]
      rw [hstep]
      exact ih es2 ht _

/-- The kind sequence of the sorted event stream depends only on the job
multiset: equal sorted key lists determine the kinds by parity. -/
theorem get_events_kinds_of_perm (jobs jobs' : List Job) (hp : jobs'.Perm jobs) :
    (get_events jobs').map Event.evt_t = (get_events jobs).map Event.evt_t := by
  have hpe : (get_events jobs').Perm (get_events jobs) :=
    (get_events_perm jobs').trans
      ((perm_flatMap job_events hp).trans (get_events_perm jobs).symm)
  have hs1 : ((get_events jobs').map event_key).Sorted (· ≤ ·) :=
    (get_events_sorted jobs').map event_key (fun _ _ h => h)
  have hs2 : ((get_events jobs).map event_key).Sorted (· ≤ ·) :=
    (get_events_sorted jobs).map event_key (fun _ _ h => h)
  have hkeys : (get_events jobs').map event_key = (get_events jobs).map event_key :=
    List.eq_of_perm_of_sorted (hpe.map event_key) hs1 hs2
  have hfun : ∀ E : List Event, E.map Event.evt_t
      = (E.map event_key).map
          (fun k => if k % 2 = 1 then EventKind.birth else EventKind.death) := by
    intro E
    rw [List.map_map]
    refine (List.map_congr_left ?_).symm
    intro e _
    cases he : e.evt_t
    · have h1 : (2 * e.time + 1) % 2 = 1 := by omega
      simp [event_key, he, kind_rank, h1]
    · have h0 : (2 * e.time + 0) % 2 = 0 := by omega
      simp [event_key, he, kind_rank, h0]
  rw [hfun (get_events jobs'), hfun (get_events jobs), hkeys]

theorem max_live_perm (jobs jobs' : List Job) (hp : jobs'.Perm jobs) :
    max_live_jobs jobs' = max_live_jobs jobs := by
  unfold max_live_jobs
  rw [live_foldl_kinds (get_events jobs') (get_events jobs)
    (get_events_kinds_of_perm jobs jobs' hp) (0, 0)]

/-- What C4 asserts of `interval_graph_coloring`: it succeeds, each row is
pairwise non-overlapping, the row count is the maximum concurrent job
count, and re-colouring the same job set (in any order) gives the same
row count. -/
def igc_spec (jobs : List Job) : Prop :=
  ∃ rows, interval_graph_coloring jobs = some rows ∧
    (∀ row ∈ rows, row.Pairwise (fun a b => ¬ Job.overlaps_with a b)) ∧
    rows.length = max_live_jobs jobs ∧
    ∀ jobs' : List Job, jobs'.Perm jobs →
      ∃ rows', interval_graph_coloring jobs' = some rows' ∧
        rows'.length = rows.length

/-- C4: for job sets with unique ids and well-formed lifetimes,
`interval_graph_coloring` returns rows whose jobs are pairwise
non-overlapping, the number of rows equals the maximum number of
simultaneously live jobs (the event sweep's running maximum, not the byte
load), and re-colouring the same job set — presented in any order — yields
the same row count. -/
theorem C4_igc (jobs : List Job)
    (hids : (jobs.map Job.id).Nodup) (hwf : ∀ j ∈ jobs, j.wf) :
    igc_spec jobs := by
  obtain ⟨fin, hrun, hch, hcnt⟩ :=
    igc_run_spec (get_events jobs) igc_init [] jobs (igc_init_inv jobs hids hwf)
  refine ⟨fin.res, ?_, ?_, ?_, ?_⟩
  · unfold interval_graph_coloring
    rw [hrun]
    rfl
  · intro row hrow
    rcases List.mem_iff_getElem.mp hrow with ⟨i, hi, hrr⟩
    have hgd : fin.res.getD i [] = row := by
      rw [List.getD_eq_getElem fin.res [] hi, hrr]
    have hchain := (hch i).1
    have hwfr := (hch i).2
    rw [hgd] at hchain hwfr
    have hp := chain_wf_pairwise row hchain hwfr
    refine hp.imp ?_
    intro a b hle hov
    exact absurd (lt_of_lt_of_le hov.2 hle) (lt_irrefl _)
  · rw [hcnt]
    rfl
  · intro jobs' hp
    have hids' : (jobs'.map Job.id).Nodup := hids.perm (hp.map Job.id).symm
    have hwf' : ∀ j ∈ jobs', j.wf := fun j hj => hwf j (hp.mem_iff.mp hj)
    obtain ⟨fin', hrun', _, hcnt'⟩ :=
      igc_run_spec (get_events jobs') igc_init [] jobs'
        (igc_init_inv jobs' hids' hwf')
    refine ⟨fin'.res, ?_, ?_⟩
    · unfold interval_graph_coloring
      rw [hrun']
      rfl
    · have h1 : fin'.res.length = max_live_jobs jobs' := by
        rw [hcnt']
        rfl
      have h2 : fin.res.length = max_live_jobs jobs := by
        rw [hcnt]
        rfl
      rw [h1, h2, max_live_perm jobs jobs' hp]

/-- The spec's chain scenario: three jobs of size 8 with lifetimes
(0,2), (1,3), (2,4). -/
def demo_igc_jobs : List Job :=
  [Job.mk 8 0 2 8 none none 0 0,
   Job.mk 8 1 3 8 none none 0 1,
   Job.mk 8 2 4 8 none none 0 2]

theorem C4_igc_witness :
    ((demo_igc_jobs.map Job.id).Nodup ∧ (∀ j ∈ demo_igc_jobs, j.wf)) ∧
    igc_spec demo_igc_jobs :=
  ⟨by decide, C4_igc demo_igc_jobs (by decide) (by decide)⟩
